import Mathlib

/-!
Verification of the Kusion app-configuration generation engine
(`pkg/modules/generators/app_configurations_generator.go` in the sources):
the workload/resource assembly in `callModules`, the two patch algebras
(`PatchWorkload`, `JSONPatch`), the imported-resource post-processor and the
duplicate-imported-ID pre-flight check of `Generate`.

Modelling conventions:
* Go `map[string]T` values are association lists; iteration order of a Go map
  is an explicit list-order parameter (Go fixes no order).  `nil` and empty
  maps/slices are conflated.
* Decoded YAML/JSON documents (`interface{}` trees) are `Value` trees; the
  numeric normalization round-trip in `PatchWorkload` is the identity here
  because `Value` has a single canonical numeric representation.
* Go panics raised by failed type assertions inside the patching helpers are
  modelled as `Except.error`.
-/

namespace Kusion

/-- A decoded JSON/YAML document (Go `interface{}` after unmarshalling). -/
inductive Value where
  | null : Value
  | bool (b : Bool) : Value
  | num (n : Int) : Value
  | str (s : String) : Value
  | arr (elems : List Value) : Value
  | obj (fields : List (String × Value)) : Value

/-- Association-list rendering of a Go `map[string]α`. -/
abbrev SMap (α : Type) := List (String × α)

/-- Map lookup (`m[k]` with `ok` check). -/
def SMap.get? {α : Type} (m : SMap α) (k : String) : Option α :=
  match m with
  | [] => none
  | kv :: rest => if kv.1 = k then some kv.2 else SMap.get? rest k

/-- Map update `m[k] = v`: replaces the binding in place, else appends. -/
def SMap.set {α : Type} (m : SMap α) (k : String) (v : α) : SMap α :=
  match m with
  | [] => [(k, v)]
  | kv :: rest => if kv.1 = k then (k, v) :: rest else kv :: SMap.set rest k v

/-- Map deletion `delete(m, k)`. -/
def SMap.del {α : Type} (m : SMap α) (k : String) : SMap α :=
  match m with
  | [] => []
  | kv :: rest => if kv.1 = k then SMap.del rest k else kv :: SMap.del rest k

theorem SMap.get_set {α : Type} (m : SMap α) (k : String) (v : α) :
    SMap.get? (SMap.set m k v) k = some v := by
  induction m with
  | nil => simp [SMap.set, SMap.get?]
  | cons kv rest ih =>
      by_cases h : kv.1 = k
      · simp [SMap.set, h, SMap.get?]
      · simp [SMap.set, h, SMap.get?, ih]

theorem SMap.get_set_ne {α : Type} (m : SMap α) (k k' : String) (v : α) (h : k ≠ k') :
    SMap.get? (SMap.set m k v) k' = SMap.get? m k' := by
  induction m with
  | nil => simp [SMap.set, SMap.get?, h]
  | cons kv rest ih =>
      by_cases hk : kv.1 = k
      · subst hk
        simp [SMap.set, SMap.get?, h]
      · by_cases hk' : kv.1 = k'
        · simp only [SMap.set, if_neg hk, SMap.get?, if_pos hk']
        · simp only [SMap.set, if_neg hk, SMap.get?, if_neg hk', ih]

theorem SMap.set_same {α : Type} (m : SMap α) (k : String) (v : α)
    (h : SMap.get? m k = some v) : SMap.set m k v = m := by
  induction m with
  | nil => simp [SMap.get?] at h
  | cons kv rest ih =>
      obtain ⟨k0, v0⟩ := kv
      by_cases hk : k0 = k
      · simp [SMap.get?, hk] at h
        simp [SMap.set, hk, h]
      · simp [SMap.get?, hk] at h
        simp [SMap.set, hk, ih h]

/-- Result of walking a field path, as in `unstructured.NestedFieldNoCopy`:
the value was found, a segment was absent (`missing`, the `!b` case), or an
intermediate value was not an object (the error case). -/
inductive NestedLookup (α : Type) where
  | found (a : α) : NestedLookup α
  | missing : NestedLookup α
  | badPath : NestedLookup α

/-- Walk a dotted field path through a document
(`unstructured.NestedFieldNoCopy`). -/
def nestedValue : Value → List String → NestedLookup Value
  | v, [] => .found v
  | .obj fs, k :: ks =>
      match SMap.get? fs k with
      | some c => nestedValue c ks
      | none => .missing
  | _, _ :: _ => .badPath

/-- Set a value at a field path, creating missing intermediate objects, and
failing when an existing intermediate is not an object — the shared behavior
of `unstructured.SetNestedField` and of json-patch `add` under
`EnsurePathExistsOnAdd`. -/
def setPath : Value → List String → Value → Except String Value
  | _, [], x => .ok x
  | .obj fs, k :: ks, x =>
      (setPath ((SMap.get? fs k).getD (.obj [])) ks x).map
        (fun c => .obj (SMap.set fs k c))
  | _, _ :: _, _ => .error "value cannot be set because path is not an object"

/-- Set a value at a nonempty field path below a top-level object. -/
def setPathF (fs : SMap Value) (p : List String) (x : Value) :
    Except String (SMap Value) :=
  match p with
  | [] => .error "empty path"
  | k :: ks =>
      (setPath ((SMap.get? fs k).getD (.obj [])) ks x).map
        (fun c => SMap.set fs k c)

/-- Simple path lookup used for json-patch reasoning: `some` when the full
path resolves, `none` otherwise. -/
def getPath (v : Value) (p : List String) : Option Value :=
  match nestedValue v p with
  | .found x => some x
  | _ => none

/-- Json-patch `remove` under `AllowMissingPathOnRemove`: a path that does not
resolve leaves the document unchanged. -/
def removePath : Value → List String → Value
  | v, [] => v
  | .obj fs, [k] => .obj (SMap.del fs k)
  | .obj fs, k :: k' :: ks =>
      match SMap.get? fs k with
      | some c => .obj (SMap.set fs k (removePath c (k' :: ks)))
      | none => .obj fs
  | v, _ :: _ => v

/-- Decode an object all of whose field values are strings
(`unstructured.NestedStringMap`'s conversion step). -/
def decodeStringMap : Value → Except String (SMap String)
  | .obj fs => decodeStringFields fs
  | _ => .error "value is not a map of strings"
where
  decodeStringFields : List (String × Value) → Except String (SMap String)
    | [] => .ok []
    | (k, .str s) :: rest => (decodeStringFields rest).map (fun m => (k, s) :: m)
    | (_, _) :: _ => .error "value is not a map of strings"

/-- Encode a string map back into a document value. -/
def encodeStringMap (m : SMap String) : Value :=
  .obj (m.map (fun kv => (kv.1, .str kv.2)))

theorem decode_encode_stringMap (m : SMap String) :
    decodeStringMap (encodeStringMap m) = .ok m := by
  induction m with
  | nil => rfl
  | cons kv rest ih =>
      simp only [encodeStringMap, List.map] at ih ⊢
      simp [decodeStringMap, decodeStringMap.decodeStringFields]
      simp [decodeStringMap] at ih
      simp [ih, Except.map]

theorem SMap.set_set {α : Type} (m : SMap α) (k : String) (a b : α) :
    SMap.set (SMap.set m k a) k b = SMap.set m k b := by
  induction m with
  | nil => simp [SMap.set]
  | cons kv rest ih =>
      by_cases hk : kv.1 = k
      · simp [SMap.set, hk]
      · simp [SMap.set, hk, ih]

theorem setPath_obj {v : Value} {k : String} {ks : List String} {x v' : Value}
    (h : setPath v (k :: ks) x = .ok v') : ∃ fs, v = .obj fs := by
  cases v with
  | obj fs => exact ⟨fs, rfl⟩
  | null => simp [setPath] at h
  | bool b => simp [setPath] at h
  | num n => simp [setPath] at h
  | str s => simp [setPath] at h
  | arr es => simp [setPath] at h

theorem setPath_get {v : Value} {p : List String} {x v' : Value}
    (h : setPath v p x = .ok v') : nestedValue v' p = .found x := by
  induction p generalizing v v' with
  | nil =>
      simp [setPath] at h
      subst h
      simp [nestedValue]
  | cons k ks ih =>
      obtain ⟨fs, rfl⟩ := setPath_obj h
      simp only [setPath] at h
      cases hc : setPath ((SMap.get? fs k).getD (.obj [])) ks x with
      | error e => rw [hc] at h; simp [Except.map] at h
      | ok c =>
          rw [hc] at h; simp [Except.map] at h
          subst h
          simp [nestedValue, SMap.get_set, ih hc]

theorem setPath_setPath {v : Value} {p : List String} {x v' : Value} (y : Value)
    (h : setPath v p x = .ok v') : setPath v' p y = setPath v p y := by
  induction p generalizing v v' with
  | nil => simp [setPath]
  | cons k ks ih =>
      obtain ⟨fs, rfl⟩ := setPath_obj h
      simp only [setPath] at h
      cases hc : setPath ((SMap.get? fs k).getD (.obj [])) ks x with
      | error e => rw [hc] at h; simp [Except.map] at h
      | ok c =>
          rw [hc] at h; simp [Except.map] at h
          subst h
          simp only [setPath, SMap.get_set, Option.getD_some, ih hc,
            SMap.set_set]

theorem nested_setPath {v : Value} {p : List String} {x : Value}
    (h : nestedValue v p = .found x) : setPath v p x = .ok v := by
  induction p generalizing v with
  | nil =>
      simp [nestedValue] at h
      simp [setPath, h]
  | cons k ks ih =>
      cases v with
      | obj fs =>
          simp only [nestedValue] at h
          cases hg : SMap.get? fs k with
          | none => rw [hg] at h; cases h
          | some c =>
              rw [hg] at h
              simp only [setPath, hg, Option.getD_some, ih h, Except.map]
              rw [SMap.set_same fs k c hg]
      | null => simp [nestedValue] at h
      | bool b => simp [nestedValue] at h
      | num n => simp [nestedValue] at h
      | str s => simp [nestedValue] at h
      | arr es => simp [nestedValue] at h

theorem setPath_frame {pre : List String} {v : Value} {a : String}
    {p' : List String} {x v' : Value} (b : String) (q' : List String)
    (h : setPath v (pre ++ a :: p') x = .ok v') (hab : a ≠ b) :
    nestedValue v' (pre ++ b :: q') = nestedValue v (pre ++ b :: q') := by
  induction pre generalizing v v' with
  | nil =>
      simp only [List.nil_append] at h ⊢
      obtain ⟨fs, rfl⟩ := setPath_obj h
      simp only [setPath] at h
      cases hc : setPath ((SMap.get? fs a).getD (.obj [])) p' x with
      | error e => rw [hc] at h; simp [Except.map] at h
      | ok c =>
          rw [hc] at h; simp [Except.map] at h
          subst h
          have hne : a ≠ b := hab
          simp [nestedValue, SMap.get_set_ne _ _ _ _ hne]
  | cons k pre' ih =>
      simp only [List.cons_append] at h ⊢
      obtain ⟨fs, rfl⟩ := setPath_obj h
      simp only [setPath] at h
      cases hc : setPath ((SMap.get? fs k).getD (.obj [])) (pre' ++ a :: p') x with
      | error e => rw [hc] at h; simp [Except.map] at h
      | ok c =>
          rw [hc] at h; simp [Except.map] at h
          subst h
          simp only [nestedValue, SMap.get_set]
          cases hg : SMap.get? fs k with
          | some c0 =>
              rw [hg] at hc
              simp only [Option.getD_some] at hc
              exact ih hc
          | none =>
              rw [hg] at hc
              simp only [Option.getD_none] at hc
              rw [ih hc]
              cases pre' with
              | nil => simp [nestedValue, SMap.get?]
              | cons k' rest => simp [nestedValue, SMap.get?]

theorem setPathF_eq_setPath (fs : SMap Value) (k : String) (ks : List String)
    (x : Value) :
    setPathF fs (k :: ks) x = (setPath (.obj fs) (k :: ks) x).bind
      (fun v => match v with
        | .obj fs' => .ok fs'
        | _ => .error "not an object") := by
  simp only [setPathF, setPath]
  cases setPath ((SMap.get? fs k).getD (.obj [])) ks x with
  | error e => simp [Except.map, Except.bind]
  | ok c => simp [Except.map, Except.bind]

theorem setPathF_ok {fs : SMap Value} {k : String} {ks : List String}
    {x : Value} {fs' : SMap Value} (h : setPathF fs (k :: ks) x = .ok fs') :
    setPath (.obj fs) (k :: ks) x = .ok (.obj fs') := by
  rw [setPathF_eq_setPath] at h
  cases hs : setPath (.obj fs) (k :: ks) x with
  | error e => rw [hs] at h; simp [Except.bind] at h
  | ok v =>
      rw [hs] at h
      cases v with
      | obj g => simp [Except.bind] at h; rw [h]
      | null => simp [Except.bind] at h
      | bool b => simp [Except.bind] at h
      | num n => simp [Except.bind] at h
      | str s => simp [Except.bind] at h
      | arr es => simp [Except.bind] at h

theorem setPathF_get {fs : SMap Value} {k : String} {ks : List String}
    {x : Value} {fs' : SMap Value} (h : setPathF fs (k :: ks) x = .ok fs') :
    nestedValue (.obj fs') (k :: ks) = .found x :=
  setPath_get (setPathF_ok h)

theorem setPathF_setPathF {fs : SMap Value} {k : String} {ks : List String}
    {x : Value} {fs' : SMap Value} (y : Value)
    (h : setPathF fs (k :: ks) x = .ok fs') :
    setPathF fs' (k :: ks) y = setPathF fs (k :: ks) y := by
  rw [setPathF_eq_setPath, setPathF_eq_setPath,
    setPath_setPath y (setPathF_ok h)]

theorem nested_setPathF {fs : SMap Value} {k : String} {ks : List String}
    {x : Value} (h : nestedValue (.obj fs) (k :: ks) = .found x) :
    setPathF fs (k :: ks) x = .ok fs := by
  rw [setPathF_eq_setPath, nested_setPath h]
  rfl

theorem setPathF_frame {pre : List String} {fs : SMap Value} {a : String}
    {p' : List String} {x : Value} {fs' : SMap Value} (b : String)
    (q' : List String)
    (h : setPathF fs (pre ++ a :: p') x = .ok fs') (hab : a ≠ b) :
    nestedValue (.obj fs') (pre ++ b :: q') = nestedValue (.obj fs) (pre ++ b :: q') := by
  match hp : pre ++ a :: p', h with
  | k :: ks, h =>
      have := setPathF_ok h
      rw [← hp] at this
      exact setPath_frame b q' this hab

/-! ## Data model (`v1.Resource`, `v1.Patcher`, `v1.Container` environment). -/

/-- Reserved extension key marking the workload resource
(`isWorkload = "kusion.io/is-workload"`). -/
def isWorkload : String := "kusion.io/is-workload"

/-- Reserved sentinel value marking removal in the workload patcher
(`removalVal = "ops://kusionstack.io/remove"`). -/
def removalVal : String := "ops://kusionstack.io/remove"

/-- Extension key under which a health policy is recorded
(`v1.FieldHealthPolicy`). -/
def FieldHealthPolicy : String := "healthPolicy"

/-- Modelled from the spec: the reserved imported-resource-ID extension key
(`tfops.ImportIDKey`, whose defining file is not among the sources). -/
def ImportIDKey : String := "importID"

/-- Resource type enum (`v1.Kubernetes`, `v1.Terraform`, ...). -/
inductive ResourceType where
  | kubernetes : ResourceType
  | terraform : ResourceType
  | otherRT (s : String) : ResourceType
deriving DecidableEq, Repr

/-- A `v1.Resource`: ID, type, attribute document, extension metadata. -/
structure Resource where
  id : String
  type : ResourceType
  attributes : SMap Value
  extensions : SMap Value

/-- A `v1.EnvVar`-style name/value pair in `Patcher.Environments`. -/
structure EnvVar where
  name : String
  value : String
deriving DecidableEq, Repr

/-- Patch type tag of a `v1.JSONPatcher` (`v1.MergePatch`, `v1.JSONPatch`
or any other string). -/
inductive PatchType where
  | mergePatchType : PatchType
  | jsonPatchType : PatchType
  | otherType (s : String) : PatchType

/-- One RFC 6902 operation, over object paths (the fragment the engine's
relaxations concern). -/
inductive PatchOp where
  | addOp (path : List String) (v : Value) : PatchOp
  | removeOp (path : List String) : PatchOp
  | replaceOp (path : List String) (v : Value) : PatchOp

/-- The decoded form of a `v1.JSONPatcher` payload: a JSON document (for
merge patches) or an operation list (for JSON patches). -/
inductive PatchPayload where
  | doc (v : Value) : PatchPayload
  | ops (l : List PatchOp) : PatchPayload

/-- A `v1.JSONPatcher` entry: patch type plus payload. -/
structure JSONPatcher where
  type : PatchType
  payload : PatchPayload

/-- A `v1.Patcher`.  Each `none` field is a nil Go map/slice, skipped by the
patch engine.  Go map fields are association lists whose order stands for the
map iteration order. -/
structure Patcher where
  labels : Option (SMap String)
  podLabels : Option (SMap String)
  annotations : Option (SMap String)
  podAnnotations : Option (SMap String)
  environments : Option (List EnvVar)
  jsonPatchers : Option (List (String × JSONPatcher))

/-! ## `PatchWorkload` (workload structural patch) -/

/-- Merge one string-map patch into an existing map: a sentinel-valued entry
deletes the key, any other entry sets it (the four label/annotation merge
loops of `PatchWorkload`; list order is the Go map iteration order). -/
def mergeStringPatch (m : SMap String) (patch : SMap String) : SMap String :=
  patch.foldl (fun acc kv =>
    if kv.2 = removalVal then SMap.del acc kv.1 else SMap.set acc kv.1 kv.2) m

def labelsPath : List String := ["metadata", "labels"]

def annotationsPath : List String := ["metadata", "annotations"]

def podLabelsPath : List String := ["spec", "template", "metadata", "labels"]

def podAnnotationsPath : List String := ["spec", "template", "metadata", "annotations"]

def containersPath : List String := ["spec", "template", "spec", "containers"]

/-- Label/annotation patch step: `un.GetLabels`/`un.GetAnnotations` swallow
lookup failures (yielding a fresh empty map), merge, then write back. -/
def patchTopMapStep (path : List String) (patch : SMap String)
    (fs : SMap Value) : Except String (SMap Value) :=
  let m := match nestedValue (.obj fs) path with
    | .found v => ((decodeStringMap v).toOption).getD []
    | _ => []
  setPathF fs path (encodeStringMap (mergeStringPatch m patch))

/-- Pod-label/pod-annotation patch step: `unstructured.NestedStringMap`
failures abort the call; a missing path yields a fresh empty map. -/
def patchPodMapStep (path : List String) (patch : SMap String)
    (fs : SMap Value) : Except String (SMap Value) := do
  let m ← match nestedValue (.obj fs) path with
    | .found v => decodeStringMap v
    | .missing => Except.ok []
    | .badPath => Except.error "failed to get nested string map from workload"
  setPathF fs path (encodeStringMap (mergeStringPatch m patch))

/-- `runtime.DefaultUnstructuredConverter.ToUnstructured` on a
`k8sv1.EnvVar`: JSON object with `name`, and `value` unless empty
(`omitempty`). -/
def envVarValue (e : EnvVar) : Value :=
  .obj (("name", .str e.name) ::
    (if e.value = "" then [] else [("value", .str e.value)]))

/-- The inner removal loop of the environment patch: drop every object entry
whose `name` equals `n`; a non-object entry is logged and kept; an object
entry without a string `name` aborts (a type-assertion panic in the Go
source). -/
def removeEnvName (n : String) : List Value → Except String (List Value)
  | [] => .ok []
  | .obj e :: rest =>
      match SMap.get? e "name" with
      | some (.str s) =>
          (removeEnvName n rest).map (fun r => if s = n then r else .obj e :: r)
      | _ => .error "failed to assert the env name as a string"
  | v :: rest => (removeEnvName n rest).map (fun r => v :: r)

/-- The outer removal loop: apply `removeEnvName` for each sentinel-valued
patch entry in turn. -/
def removeEnvs (envsToRemove : List EnvVar) (envs : List Value) :
    Except String (List Value) :=
  envsToRemove.foldlM (fun es e => removeEnvName e.name es) envs

/-- Per-container body of the environment patch loop: read `env` (empty when
absent), remove, then prepend each merge entry in turn. -/
def patchContainer (envsToRemove envsToMerge : List EnvVar) (c : Value) :
    Except String Value :=
  match c with
  | .obj fields => do
      let envs0 ← match SMap.get? fields "env" with
        | some (.arr es) => Except.ok es
        | some _ => Except.error "failed to get env from container"
        | none => Except.ok []
      let removed ← removeEnvs envsToRemove envs0
      let merged := envsToMerge.foldl (fun es e => envVarValue e :: es) removed
      Except.ok (.obj (SMap.set fields "env" (.arr merged)))
  | _ => .error "failed to assert the container as a map"

/-- Error-propagating map over a list (the per-container loop of the
environment patch). -/
def mapME (f : Value → Except String Value) : List Value → Except String (List Value)
  | [] => .ok []
  | c :: rest => do
      let c' ← f c
      let rest' ← mapME f rest
      Except.ok (c' :: rest')

/-- Environment patch step of `PatchWorkload`: split the patch entries into
removals (sentinel-valued) and merges, patch every container of the pod
template, and write the container list back. -/
def patchEnvStep (patchEnvs : List EnvVar) (fs : SMap Value) :
    Except String (SMap Value) := do
  let cs ← match nestedValue (.obj fs) containersPath with
    | .found (.arr cs) => Except.ok cs
    | _ => Except.error "failed to get containers from workload"
  let pe := patchEnvs.partition (fun e => e.value = removalVal)
  let cs' ← mapME (patchContainer pe.1 pe.2) cs
  setPathF fs containersPath (.arr cs')

/-- The `if patcher.Labels != nil` block of `PatchWorkload`. -/
def stepLabels (p : Patcher) (fs : SMap Value) : Except String (SMap Value) :=
  match p.labels with
  | some l => patchTopMapStep labelsPath l fs
  | none => .ok fs

/-- The `if patcher.PodLabels != nil` block of `PatchWorkload`. -/
def stepPodLabels (p : Patcher) (fs : SMap Value) : Except String (SMap Value) :=
  match p.podLabels with
  | some l => patchPodMapStep podLabelsPath l fs
  | none => .ok fs

/-- The `if patcher.Annotations != nil` block of `PatchWorkload`. -/
def stepAnnotations (p : Patcher) (fs : SMap Value) : Except String (SMap Value) :=
  match p.annotations with
  | some l => patchTopMapStep annotationsPath l fs
  | none => .ok fs

/-- The `if patcher.PodAnnotations != nil` block of `PatchWorkload`. -/
def stepPodAnnotations (p : Patcher) (fs : SMap Value) :
    Except String (SMap Value) :=
  match p.podAnnotations with
  | some l => patchPodMapStep podAnnotationsPath l fs
  | none => .ok fs

/-- The `if patcher.Environments != nil` block of `PatchWorkload`. -/
def stepEnvironments (p : Patcher) (fs : SMap Value) :
    Except String (SMap Value) :=
  match p.environments with
  | some es => patchEnvStep es fs
  | none => .ok fs

/-- The five patch dimensions of `PatchWorkload`, applied in source order to
the workload's attribute document. -/
def patchWorkloadAttrs (p : Patcher) (fs : SMap Value) :
    Except String (SMap Value) :=
  stepLabels p fs >>= stepPodLabels p >>= stepAnnotations p >>=
    stepPodAnnotations p >>= stepEnvironments p

/-- `PatchWorkload`: a nil patcher or nil workload is a no-op; otherwise
patch labels, pod labels, annotations, pod annotations and container
environments in order, skipping each nil patch field.  The in-place mutation
of the workload is rendered by returning the updated resource; the k8s-JSON
numeric normalization round trip is the identity in this model. -/
def PatchWorkload (workload : Option Resource) (patcher : Option Patcher) :
    Except String (Option Resource) :=
  match patcher with
  | none => .ok workload
  | some p =>
    match workload with
    | none => .ok none
    | some w =>
        (patchWorkloadAttrs p w.attributes).map
          (fun fs => some { w with attributes := fs })

theorem except_bind_ok {α β : Type} {x : Except String α}
    {f : α → Except String β} {b : β} (h : (x >>= f) = .ok b) :
    ∃ a, x = .ok a ∧ f a = .ok b := by
  cases x with
  | error e => simp [Bind.bind, Except.bind] at h
  | ok a => exact ⟨a, rfl, by simpa [Bind.bind, Except.bind] using h⟩

theorem SMap.get_del_none {α : Type} (m : SMap α) (k k' : String)
    (h : SMap.get? m k = none) : SMap.get? (SMap.del m k') k = none := by
  induction m with
  | nil => rfl
  | cons kv rest ih =>
      by_cases hk : kv.1 = k
      · simp [SMap.get?, hk] at h
      · simp [SMap.get?, hk] at h
        by_cases hk' : kv.1 = k'
        · simp [SMap.del, hk', ih h]
        · simp [SMap.del, hk', SMap.get?, hk, ih h]

theorem SMap.get_del_same {α : Type} (m : SMap α) (k : String) :
    SMap.get? (SMap.del m k) k = none := by
  induction m with
  | nil => rfl
  | cons kv rest ih =>
      by_cases hk : kv.1 = k
      · simp [SMap.del, hk, ih]
      · simp [SMap.del, hk, SMap.get?, ih]

theorem SMap.del_of_get_none {α : Type} (m : SMap α) (k : String)
    (h : SMap.get? m k = none) : SMap.del m k = m := by
  induction m with
  | nil => rfl
  | cons kv rest ih =>
      by_cases hk : kv.1 = k
      · simp [SMap.get?, hk] at h
      · simp [SMap.get?, hk] at h
        simp [SMap.del, hk, ih h]

theorem mergeStringPatch_cons (m : SMap String) (kv : String × String)
    (rest : SMap String) :
    mergeStringPatch m (kv :: rest) =
      mergeStringPatch
        (if kv.2 = removalVal then SMap.del m kv.1 else SMap.set m kv.1 kv.2)
        rest := by
  simp [mergeStringPatch, List.foldl]

theorem mergeStringPatch_none_mono (patch m : SMap String) (k : String)
    (hs : ∀ kv ∈ patch, kv.2 = removalVal) (h : SMap.get? m k = none) :
    SMap.get? (mergeStringPatch m patch) k = none := by
  induction patch generalizing m with
  | nil => simpa [mergeStringPatch]
  | cons kv rest ih =>
      rw [mergeStringPatch_cons]
      rw [if_pos (hs kv (by simp))]
      exact ih (SMap.del m kv.1) (fun x hx => hs x (by simp [hx]))
        (SMap.get_del_none m k kv.1 h)

theorem mergeStringPatch_sentinel_get_none (patch m : SMap String)
    (k : String) (hs : ∀ kv ∈ patch, kv.2 = removalVal)
    (hk : k ∈ patch.map Prod.fst) :
    SMap.get? (mergeStringPatch m patch) k = none := by
  induction patch generalizing m with
  | nil => simp at hk
  | cons kv rest ih =>
      rw [mergeStringPatch_cons, if_pos (hs kv (by simp))]
      rcases List.mem_map.mp hk with ⟨x, hx, hxk⟩
      rcases List.mem_cons.mp hx with hx1 | hx2
      · subst hx1
        subst hxk
        exact mergeStringPatch_none_mono rest (SMap.del m x.1) x.1
          (fun y hy => hs y (by simp [hy])) (SMap.get_del_same m x.1)
      · subst hxk
        exact ih (SMap.del m kv.1) (fun y hy => hs y (by simp [hy]))
          (List.mem_map.mpr ⟨x, hx2, rfl⟩)

theorem mergeStringPatch_id (patch m : SMap String)
    (hs : ∀ kv ∈ patch, kv.2 = removalVal)
    (habs : ∀ kv ∈ patch, SMap.get? m kv.1 = none) :
    mergeStringPatch m patch = m := by
  induction patch generalizing m with
  | nil => simp [mergeStringPatch]
  | cons kv rest ih =>
      rw [mergeStringPatch_cons, if_pos (hs kv (by simp)),
        SMap.del_of_get_none m kv.1 (habs kv (by simp))]
      exact ih m (fun y hy => hs y (by simp [hy]))
        (fun y hy => habs y (by simp [hy]))

theorem mergeStringPatch_sentinel_idem (patch m : SMap String)
    (hs : ∀ kv ∈ patch, kv.2 = removalVal) :
    mergeStringPatch (mergeStringPatch m patch) patch =
      mergeStringPatch m patch :=
  mergeStringPatch_id patch (mergeStringPatch m patch) hs
    (fun kv hkv => mergeStringPatch_sentinel_get_none patch m kv.1 hs
      (List.mem_map.mpr ⟨kv, hkv, rfl⟩))

/-- An env-list entry that the removal loop can process without a Go panic:
either not an object (logged and kept) or an object with a string `name`. -/
def envWellNamed (v : Value) : Bool :=
  match v with
  | .obj e =>
      match SMap.get? e "name" with
      | some (.str _) => true
      | _ => false
  | _ => true

/-- Whether an env-list entry is an object named `n`. -/
def envNamed (n : String) (v : Value) : Bool :=
  match v with
  | .obj e =>
      match SMap.get? e "name" with
      | some (.str s) => s == n
      | _ => false
  | _ => false

theorem removeEnvName_ok {n : String} {es es' : List Value}
    (h : removeEnvName n es = .ok es') :
    (∀ v ∈ es, envWellNamed v = true) ∧
      es' = es.filter (fun v => !envNamed n v) := by
  induction es generalizing es' with
  | nil =>
      simp [removeEnvName] at h
      simp [h]
  | cons v rest ih =>
      cases v
      case obj e =>
        simp only [removeEnvName] at h
        cases hg : SMap.get? e "name" with
        | none => rw [hg] at h; simp [Except.map] at h
        | some nv =>
            cases nv
            case str s =>
              rw [hg] at h
              cases hr : removeEnvName n rest with
              | error er => rw [hr] at h; simp [Except.map] at h
              | ok r =>
                  rw [hr] at h
                  simp only [Except.map] at h
                  obtain ⟨hw, hfr⟩ := ih hr
                  by_cases hsn : s = n
                  · rw [if_pos hsn] at h
                    injection h with h
                    subst h
                    refine ⟨?_, by simp [List.filter, envNamed, hg, hsn, hfr, beq_iff_eq]⟩
                    intro x hx
                    rcases List.mem_cons.mp hx with rfl | hx2
                    · simp [envWellNamed, hg]
                    · exact hw x hx2
                  · rw [if_neg hsn] at h
                    injection h with h
                    subst h
                    have hb : (s == n) = false := by simp [hsn]
                    refine ⟨?_, by simp [List.filter, envNamed, hg, hfr, hb]⟩
                    intro x hx
                    rcases List.mem_cons.mp hx with rfl | hx2
                    · simp [envWellNamed, hg]
                    · exact hw x hx2
            all_goals (rw [hg] at h; simp [Except.map] at h)
      all_goals
        simp only [removeEnvName] at h
        cases hr : removeEnvName n rest with
        | error er => rw [hr] at h; simp [Except.map] at h
        | ok r =>
            rw [hr] at h
            simp only [Except.map] at h
            injection h with h
            subst h
            obtain ⟨hw, hfr⟩ := ih hr
            exact ⟨fun x hx => (List.mem_cons.mp hx).elim
                (fun hh => by subst hh; rfl) (hw x),
              by simp [List.filter, envNamed, hfr]⟩

theorem removeEnvName_of_wellNamed {n : String} {es : List Value}
    (hw : ∀ v ∈ es, envWellNamed v = true) :
    removeEnvName n es = .ok (es.filter (fun v => !envNamed n v)) := by
  induction es with
  | nil => simp [removeEnvName]
  | cons v rest ih =>
      have hwr : ∀ x ∈ rest, envWellNamed x = true :=
        fun x hx => hw x (by simp [hx])
      cases v with
      | obj e =>
          have hv := hw (.obj e) (by simp)
          simp only [envWellNamed] at hv
          cases hg : SMap.get? e "name" with
          | none => rw [hg] at hv; cases hv
          | some nv =>
              cases nv with
              | str s =>
                  simp only [removeEnvName, hg, ih hwr, Except.map]
                  by_cases hsn : s = n
                  · simp [List.filter, envNamed, hg, hsn]
                  · have hb : (s == n) = false := by simp [hsn]
                    simp [List.filter, envNamed, hg, hb, hsn]
              | null => rw [hg] at hv; cases hv
              | bool b => rw [hg] at hv; cases hv
              | num m => rw [hg] at hv; cases hv
              | arr l => rw [hg] at hv; cases hv
              | obj l => rw [hg] at hv; cases hv
      | null => simp [removeEnvName, ih hwr, Except.map, List.filter, envNamed]
      | bool b => simp [removeEnvName, ih hwr, Except.map, List.filter, envNamed]
      | num m => simp [removeEnvName, ih hwr, Except.map, List.filter, envNamed]
      | str s => simp [removeEnvName, ih hwr, Except.map, List.filter, envNamed]
      | arr l => simp [removeEnvName, ih hwr, Except.map, List.filter, envNamed]

theorem removeEnvs_nil (es : List Value) : removeEnvs [] es = .ok es := rfl

theorem removeEnvs_cons (e : EnvVar) (rem : List EnvVar) (es : List Value) :
    removeEnvs (e :: rem) es = removeEnvName e.name es >>= removeEnvs rem := by
  simp [removeEnvs, List.foldlM]
  rfl

theorem removeEnvs_of_wellNamed {l : List EnvVar} {es : List Value}
    (hw : ∀ v ∈ es, envWellNamed v = true) :
    removeEnvs l es =
      .ok (es.filter (fun v => !(l.any (fun e => envNamed e.name v)))) := by
  induction l generalizing es with
  | nil => simp [removeEnvs_nil]
  | cons e rest ih =>
      rw [removeEnvs_cons, removeEnvName_of_wellNamed hw]
      have hw2 : ∀ v ∈ es.filter (fun v => !envNamed e.name v),
          envWellNamed v = true :=
        fun v hv => hw v (List.mem_of_mem_filter hv)
      show removeEnvs rest (es.filter (fun v => !envNamed e.name v)) = _
      rw [ih hw2]
      congr 1
      rw [List.filter_filter]
      refine List.filter_congr ?_
      intro v _
      cases henv : envNamed e.name v <;>
        simp [List.any_cons, henv, Bool.not_or]

theorem removeEnvs_idem {rem : List EnvVar} {es es' : List Value}
    (h : removeEnvs rem es = .ok es') : removeEnvs rem es' = .ok es' := by
  cases rem with
  | nil =>
      have he : es = es' := by
        rw [removeEnvs_nil] at h
        injection h
      subst he
      exact removeEnvs_nil es
  | cons e rest =>
      have h0 := h
      rw [removeEnvs_cons] at h0
      obtain ⟨m, hm, hrest⟩ := except_bind_ok h0
      obtain ⟨hw, -⟩ := removeEnvName_ok hm
      have hchar := removeEnvs_of_wellNamed (l := e :: rest) hw
      rw [h] at hchar
      injection hchar with hchar
      have hw' : ∀ v ∈ es', envWellNamed v = true := by
        intro v hv
        rw [hchar] at hv
        exact hw v (List.mem_of_mem_filter hv)
      rw [removeEnvs_of_wellNamed (l := e :: rest) hw']
      congr 1
      rw [hchar]
      refine List.filter_eq_self.mpr ?_
      intro a ha
      have hp := List.of_mem_filter ha
      exact hp

theorem mapME_ok_of_each {f : Value → Except String Value} {l : List Value}
    (h : ∀ x ∈ l, f x = .ok x) : mapME f l = .ok l := by
  induction l with
  | nil => rfl
  | cons x rest ih =>
      have hx := h x (by simp)
      have hr := ih (fun y hy => h y (by simp [hy]))
      simp [mapME, hx, hr, Bind.bind, Except.bind]

theorem mapME_mem {f : Value → Except String Value} {l l' : List Value}
    (h : mapME f l = .ok l') : ∀ y ∈ l', ∃ x ∈ l, f x = .ok y := by
  induction l generalizing l' with
  | nil =>
      simp [mapME] at h
      subst h
      simp
  | cons x rest ih =>
      simp only [mapME] at h
      obtain ⟨c', hc', h2⟩ := except_bind_ok h
      obtain ⟨rest', hrest', h3⟩ := except_bind_ok h2
      have hl' : l' = c' :: rest' := by
        simp only [Except.ok.injEq] at h3
        exact h3.symm
      subst hl'
      intro y hy
      rcases List.mem_cons.mp hy with rfl | hy2
      · exact ⟨x, by simp, hc'⟩
      · obtain ⟨x2, hx2, hfx2⟩ := ih hrest' y hy2
        exact ⟨x2, by simp [hx2], hfx2⟩

theorem patchContainer_eq_obj {rem mer : List EnvVar} {c c' : Value}
    (h : patchContainer rem mer c = .ok c') : ∃ fields, c = .obj fields := by
  cases c with
  | obj fields => exact ⟨fields, rfl⟩
  | null => simp [patchContainer] at h
  | bool b => simp [patchContainer] at h
  | num n => simp [patchContainer] at h
  | str s => simp [patchContainer] at h
  | arr l => simp [patchContainer] at h

theorem patchContainer_idem {rem : List EnvVar} {c c' : Value}
    (h : patchContainer rem [] c = .ok c') :
    patchContainer rem [] c' = .ok c' := by
  obtain ⟨fields, rfl⟩ := patchContainer_eq_obj h
  simp only [patchContainer] at h
  have main : ∀ envs0 removed, removeEnvs rem envs0 = .ok removed →
      c' = .obj (SMap.set fields "env" (.arr removed)) →
      patchContainer rem [] c' = .ok c' := by
    intro envs0 removed hrem hc'
    subst hc'
    simp only [patchContainer, SMap.get_set]
    have hidem := removeEnvs_idem hrem
    simp only [Bind.bind, Except.bind, hidem, List.foldl_nil, SMap.set_set]
  cases hg : SMap.get? fields "env" with
  | none =>
      rw [hg] at h
      simp only [Bind.bind, Except.bind] at h
      cases hrem : removeEnvs rem [] with
      | error e => rw [hrem] at h; simp at h
      | ok removed =>
          rw [hrem] at h
          simp only [List.foldl_nil, Except.ok.injEq] at h
          exact main [] removed hrem h.symm
  | some val =>
      rw [hg] at h
      cases val with
      | arr es =>
          simp only [Bind.bind, Except.bind] at h
          cases hrem : removeEnvs rem es with
          | error e => rw [hrem] at h; simp at h
          | ok removed =>
              rw [hrem] at h
              simp only [List.foldl_nil, Except.ok.injEq] at h
              exact main es removed hrem h.symm
      | null => simp [Bind.bind, Except.bind] at h
      | bool b => simp [Bind.bind, Except.bind] at h
      | num n => simp [Bind.bind, Except.bind] at h
      | str s => simp [Bind.bind, Except.bind] at h
      | obj l => simp [Bind.bind, Except.bind] at h

theorem partition_sentinel {es : List EnvVar}
    (hs : ∀ e ∈ es, e.value = removalVal) :
    es.partition (fun e => e.value = removalVal) = (es, []) := by
  rw [List.partition_eq_filter_filter]
  refine Prod.ext ?_ ?_
  · simp only []
    exact List.filter_eq_self.mpr (fun a ha => by simp [hs a ha])
  · simp only []
    exact List.filter_eq_nil_iff.mpr (fun a ha => by simp [hs a ha])

theorem patchTopMapStep_reapply {k : String} {l : List String}
    {patch : SMap String} {fs fs' g : SMap Value}
    (hsent : ∀ kv ∈ patch, kv.2 = removalVal)
    (h : patchTopMapStep (k :: l) patch fs = .ok fs')
    (hg : nestedValue (.obj g) (k :: l) = nestedValue (.obj fs') (k :: l)) :
    patchTopMapStep (k :: l) patch g = .ok g := by
  simp only [patchTopMapStep] at h ⊢
  have hfound := setPathF_get h
  rw [hg, hfound]
  simp only [decode_encode_stringMap, Except.toOption, Option.getD_some,
    mergeStringPatch_sentinel_idem _ _ hsent]
  exact nested_setPathF (hg.trans hfound)

theorem patchPodMapStep_reapply {k : String} {l : List String}
    {patch : SMap String} {fs fs' g : SMap Value}
    (hsent : ∀ kv ∈ patch, kv.2 = removalVal)
    (h : patchPodMapStep (k :: l) patch fs = .ok fs')
    (hg : nestedValue (.obj g) (k :: l) = nestedValue (.obj fs') (k :: l)) :
    patchPodMapStep (k :: l) patch g = .ok g := by
  have main : ∀ m : SMap String,
      setPathF fs (k :: l) (encodeStringMap (mergeStringPatch m patch)) = .ok fs' →
      patchPodMapStep (k :: l) patch g = .ok g := by
    intro m hset
    have hfound := setPathF_get hset
    simp only [patchPodMapStep]
    rw [hg, hfound]
    simp only [decode_encode_stringMap, Bind.bind, Except.bind,
      mergeStringPatch_sentinel_idem _ _ hsent]
    exact nested_setPathF (hg.trans hfound)
  simp only [patchPodMapStep] at h
  cases hn : nestedValue (.obj fs) (k :: l) with
  | found v =>
      simp only [hn] at h
      cases hd : decodeStringMap v with
      | error e => simp [hd, Bind.bind, Except.bind] at h
      | ok m =>
          simp only [hd, Bind.bind, Except.bind] at h
          exact main m h
  | missing =>
      simp only [hn, Bind.bind, Except.bind] at h
      exact main [] h
  | badPath => simp [hn, Bind.bind, Except.bind] at h

theorem patchEnvStep_reapply {es : List EnvVar} {fs fs' g : SMap Value}
    (hsent : ∀ e ∈ es, e.value = removalVal)
    (h : patchEnvStep es fs = .ok fs')
    (hg : nestedValue (.obj g) containersPath =
      nestedValue (.obj fs') containersPath) :
    patchEnvStep es g = .ok g := by
  simp only [patchEnvStep, partition_sentinel hsent] at h ⊢
  cases hn : nestedValue (.obj fs) containersPath with
  | found v =>
      simp only [hn] at h
      cases v with
      | arr cs =>
          simp only [Bind.bind, Except.bind] at h
          cases hm : mapME (patchContainer es []) cs with
          | error e => simp [hm] at h
          | ok cs2 =>
              simp only [hm] at h
              have hset : setPathF fs containersPath (.arr cs2) = .ok fs' := h
              have hfound := setPathF_get hset
              have hgc : nestedValue (.obj g) containersPath =
                  .found (.arr cs2) := hg.trans hfound
              rw [hgc]
              simp only [Bind.bind, Except.bind]
              have hmap : mapME (patchContainer es []) cs2 = .ok cs2 :=
                mapME_ok_of_each (fun y hy => by
                  obtain ⟨x, _, hfx⟩ := mapME_mem hm y hy
                  exact patchContainer_idem hfx)
              rw [hmap]
              exact nested_setPathF hgc
      | null => simp [Bind.bind, Except.bind] at h
      | bool b => simp [Bind.bind, Except.bind] at h
      | num n => simp [Bind.bind, Except.bind] at h
      | str s => simp [Bind.bind, Except.bind] at h
      | obj l => simp [Bind.bind, Except.bind] at h
  | missing => simp [hn, Bind.bind, Except.bind] at h
  | badPath => simp [hn, Bind.bind, Except.bind] at h

theorem patchTopMapStep_write {path : List String} {patch : SMap String}
    {fs fs' : SMap Value} (h : patchTopMapStep path patch fs = .ok fs') :
    ∃ x, setPathF fs path x = .ok fs' := by
  simp only [patchTopMapStep] at h
  exact ⟨_, h⟩

theorem patchPodMapStep_write {path : List String} {patch : SMap String}
    {fs fs' : SMap Value} (h : patchPodMapStep path patch fs = .ok fs') :
    ∃ x, setPathF fs path x = .ok fs' := by
  simp only [patchPodMapStep] at h
  cases hn : nestedValue (.obj fs) path with
  | found v =>
      simp only [hn] at h
      cases hd : decodeStringMap v with
      | error e => simp [hd, Bind.bind, Except.bind] at h
      | ok m =>
          simp only [hd, Bind.bind, Except.bind] at h
          exact ⟨_, h⟩
  | missing =>
      simp only [hn, Bind.bind, Except.bind] at h
      exact ⟨_, h⟩
  | badPath => simp [hn, Bind.bind, Except.bind] at h

theorem patchEnvStep_write {es : List EnvVar} {fs fs' : SMap Value}
    (h : patchEnvStep es fs = .ok fs') :
    ∃ x, setPathF fs containersPath x = .ok fs' := by
  simp only [patchEnvStep] at h
  cases hn : nestedValue (.obj fs) containersPath with
  | found v =>
      simp only [hn] at h
      cases v with
      | arr cs =>
          simp only [Bind.bind, Except.bind] at h
          cases hm : mapME (patchContainer
              (es.partition (fun e => e.value = removalVal)).1
              (es.partition (fun e => e.value = removalVal)).2) cs with
          | error e => rw [hm] at h; simp at h
          | ok cs2 =>
              rw [hm] at h
              exact ⟨_, h⟩
      | null => simp [Bind.bind, Except.bind] at h
      | bool b => simp [Bind.bind, Except.bind] at h
      | num n => simp [Bind.bind, Except.bind] at h
      | str s => simp [Bind.bind, Except.bind] at h
      | obj l => simp [Bind.bind, Except.bind] at h
  | missing => simp [hn, Bind.bind, Except.bind] at h
  | badPath => simp [hn, Bind.bind, Except.bind] at h

theorem stepLabels_preserves (p : Patcher) {fs fs' : SMap Value}
    (h : stepLabels p fs = .ok fs') {q : List String} {a : String}
    {p' : List String} (b : String) (q' : List String)
    (hw : labelsPath = q ++ a :: p') (hab : a ≠ b) :
    nestedValue (.obj fs') (q ++ b :: q') =
      nestedValue (.obj fs) (q ++ b :: q') := by
  cases hL : p.labels with
  | none =>
      simp only [stepLabels, hL, Except.ok.injEq] at h
      rw [h]
  | some l =>
      simp only [stepLabels, hL] at h
      obtain ⟨x, hx⟩ := patchTopMapStep_write h
      rw [hw] at hx
      exact setPathF_frame b q' hx hab

theorem stepPodLabels_preserves (p : Patcher) {fs fs' : SMap Value}
    (h : stepPodLabels p fs = .ok fs') {q : List String} {a : String}
    {p' : List String} (b : String) (q' : List String)
    (hw : podLabelsPath = q ++ a :: p') (hab : a ≠ b) :
    nestedValue (.obj fs') (q ++ b :: q') =
      nestedValue (.obj fs) (q ++ b :: q') := by
  cases hL : p.podLabels with
  | none =>
      simp only [stepPodLabels, hL, Except.ok.injEq] at h
      rw [h]
  | some l =>
      simp only [stepPodLabels, hL] at h
      obtain ⟨x, hx⟩ := patchPodMapStep_write h
      rw [hw] at hx
      exact setPathF_frame b q' hx hab

theorem stepAnnotations_preserves (p : Patcher) {fs fs' : SMap Value}
    (h : stepAnnotations p fs = .ok fs') {q : List String} {a : String}
    {p' : List String} (b : String) (q' : List String)
    (hw : annotationsPath = q ++ a :: p') (hab : a ≠ b) :
    nestedValue (.obj fs') (q ++ b :: q') =
      nestedValue (.obj fs) (q ++ b :: q') := by
  cases hL : p.annotations with
  | none =>
      simp only [stepAnnotations, hL, Except.ok.injEq] at h
      rw [h]
  | some l =>
      simp only [stepAnnotations, hL] at h
      obtain ⟨x, hx⟩ := patchTopMapStep_write h
      rw [hw] at hx
      exact setPathF_frame b q' hx hab

theorem stepPodAnnotations_preserves (p : Patcher) {fs fs' : SMap Value}
    (h : stepPodAnnotations p fs = .ok fs') {q : List String} {a : String}
    {p' : List String} (b : String) (q' : List String)
    (hw : podAnnotationsPath = q ++ a :: p') (hab : a ≠ b) :
    nestedValue (.obj fs') (q ++ b :: q') =
      nestedValue (.obj fs) (q ++ b :: q') := by
  cases hL : p.podAnnotations with
  | none =>
      simp only [stepPodAnnotations, hL, Except.ok.injEq] at h
      rw [h]
  | some l =>
      simp only [stepPodAnnotations, hL] at h
      obtain ⟨x, hx⟩ := patchPodMapStep_write h
      rw [hw] at hx
      exact setPathF_frame b q' hx hab

theorem stepEnvironments_preserves (p : Patcher) {fs fs' : SMap Value}
    (h : stepEnvironments p fs = .ok fs') {q : List String} {a : String}
    {p' : List String} (b : String) (q' : List String)
    (hw : containersPath = q ++ a :: p') (hab : a ≠ b) :
    nestedValue (.obj fs') (q ++ b :: q') =
      nestedValue (.obj fs) (q ++ b :: q') := by
  cases hL : p.environments with
  | none =>
      simp only [stepEnvironments, hL, Except.ok.injEq] at h
      rw [h]
  | some es =>
      simp only [stepEnvironments, hL] at h
      obtain ⟨x, hx⟩ := patchEnvStep_write h
      rw [hw] at hx
      exact setPathF_frame b q' hx hab

/-- All string-map entries of a patch carry the removal sentinel. -/
def sentinelMap (l : SMap String) : Bool :=
  l.all (fun kv => kv.2 == removalVal)

/-- A nil map, or a map whose entries all carry the removal sentinel. -/
def sentinelMapOpt : Option (SMap String) → Bool
  | some l => sentinelMap l
  | none => true

/-- A nil environment patch, or one whose entries all carry the sentinel. -/
def sentinelEnvOpt : Option (List EnvVar) → Bool
  | some es => es.all (fun e => e.value == removalVal)
  | none => true

/-- A patcher whose label, annotation, pod-label, pod-annotation and
environment entries all carry the removal sentinel. -/
def sentinelOnly (p : Patcher) : Bool :=
  sentinelMapOpt p.labels && sentinelMapOpt p.podLabels &&
    sentinelMapOpt p.annotations && sentinelMapOpt p.podAnnotations &&
    sentinelEnvOpt p.environments

theorem sentinelMap_prop {l : SMap String} (h : sentinelMap l = true) :
    ∀ kv ∈ l, kv.2 = removalVal := by
  intro kv hkv
  have := List.all_eq_true.mp h kv hkv
  simpa [beq_iff_eq] using this

theorem sentinelEnv_prop {l : List EnvVar}
    (h : l.all (fun e => e.value == removalVal) = true) :
    ∀ e ∈ l, e.value = removalVal := by
  intro e he
  have := List.all_eq_true.mp h e he
  simpa [beq_iff_eq] using this

theorem patchWorkloadAttrs_idem {p : Patcher} (hs : sentinelOnly p = true)
    {fs fs5 : SMap Value} (h : patchWorkloadAttrs p fs = .ok fs5) :
    patchWorkloadAttrs p fs5 = .ok fs5 := by
  simp only [patchWorkloadAttrs] at h
  obtain ⟨fs4, h14, h5⟩ := except_bind_ok h
  obtain ⟨fs3, h13, h4⟩ := except_bind_ok h14
  obtain ⟨fs2, h12, h3⟩ := except_bind_ok h13
  obtain ⟨fs1, h1, h2⟩ := except_bind_ok h12
  simp only [sentinelOnly, Bool.and_eq_true] at hs
  obtain ⟨⟨⟨⟨hsL, hsPL⟩, hsA⟩, hsPA⟩, hsE⟩ := hs
  have s1 : stepLabels p fs5 = .ok fs5 := by
    cases hL : p.labels with
    | none => simp [stepLabels, hL]
    | some l =>
        rw [hL] at hsL
        have hsl := sentinelMap_prop (l := l) hsL
        have h1' : patchTopMapStep labelsPath l fs = .ok fs1 := by
          simpa [stepLabels, hL] using h1
        have e2 : nestedValue (.obj fs2) labelsPath =
            nestedValue (.obj fs1) labelsPath :=
          stepPodLabels_preserves p h2 (q := []) "metadata" ["labels"]
            rfl (by decide)
        have e3 : nestedValue (.obj fs3) labelsPath =
            nestedValue (.obj fs2) labelsPath :=
          stepAnnotations_preserves p h3 (q := ["metadata"]) "labels" []
            rfl (by decide)
        have e4 : nestedValue (.obj fs4) labelsPath =
            nestedValue (.obj fs3) labelsPath :=
          stepPodAnnotations_preserves p h4 (q := []) "metadata" ["labels"]
            rfl (by decide)
        have e5 : nestedValue (.obj fs5) labelsPath =
            nestedValue (.obj fs4) labelsPath :=
          stepEnvironments_preserves p h5 (q := []) "metadata" ["labels"]
            rfl (by decide)
        have hg : nestedValue (.obj fs5) labelsPath =
            nestedValue (.obj fs1) labelsPath :=
          ((e5.trans e4).trans e3).trans e2
        have := patchTopMapStep_reapply (k := "metadata") (l := ["labels"])
          hsl h1' hg
        simpa [stepLabels, hL] using this
  have s2 : stepPodLabels p fs5 = .ok fs5 := by
    cases hL : p.podLabels with
    | none => simp [stepPodLabels, hL]
    | some l =>
        rw [hL] at hsPL
        have hsl := sentinelMap_prop (l := l) hsPL
        have h2' : patchPodMapStep podLabelsPath l fs1 = .ok fs2 := by
          simpa [stepPodLabels, hL] using h2
        have e3 : nestedValue (.obj fs3) podLabelsPath =
            nestedValue (.obj fs2) podLabelsPath :=
          stepAnnotations_preserves p h3 (q := []) "spec"
            ["template", "metadata", "labels"] rfl (by decide)
        have e4 : nestedValue (.obj fs4) podLabelsPath =
            nestedValue (.obj fs3) podLabelsPath :=
          stepPodAnnotations_preserves p h4
            (q := ["spec", "template", "metadata"]) "labels" []
            rfl (by decide)
        have e5 : nestedValue (.obj fs5) podLabelsPath =
            nestedValue (.obj fs4) podLabelsPath :=
          stepEnvironments_preserves p h5 (q := ["spec", "template"])
            "metadata" ["labels"] rfl (by decide)
        have hg : nestedValue (.obj fs5) podLabelsPath =
            nestedValue (.obj fs2) podLabelsPath :=
          (e5.trans e4).trans e3
        have := patchPodMapStep_reapply (k := "spec")
          (l := ["template", "metadata", "labels"]) hsl h2' hg
        simpa [stepPodLabels, hL] using this
  have s3 : stepAnnotations p fs5 = .ok fs5 := by
    cases hL : p.annotations with
    | none => simp [stepAnnotations, hL]
    | some l =>
        rw [hL] at hsA
        have hsl := sentinelMap_prop (l := l) hsA
        have h3' : patchTopMapStep annotationsPath l fs2 = .ok fs3 := by
          simpa [stepAnnotations, hL] using h3
        have e4 : nestedValue (.obj fs4) annotationsPath =
            nestedValue (.obj fs3) annotationsPath :=
          stepPodAnnotations_preserves p h4 (q := []) "metadata"
            ["annotations"] rfl (by decide)
        have e5 : nestedValue (.obj fs5) annotationsPath =
            nestedValue (.obj fs4) annotationsPath :=
          stepEnvironments_preserves p h5 (q := []) "metadata"
            ["annotations"] rfl (by decide)
        have hg : nestedValue (.obj fs5) annotationsPath =
            nestedValue (.obj fs3) annotationsPath := e5.trans e4
        have := patchTopMapStep_reapply (k := "metadata")
          (l := ["annotations"]) hsl h3' hg
        simpa [stepAnnotations, hL] using this
  have s4 : stepPodAnnotations p fs5 = .ok fs5 := by
    cases hL : p.podAnnotations with
    | none => simp [stepPodAnnotations, hL]
    | some l =>
        rw [hL] at hsPA
        have hsl := sentinelMap_prop (l := l) hsPA
        have h4' : patchPodMapStep podAnnotationsPath l fs3 = .ok fs4 := by
          simpa [stepPodAnnotations, hL] using h4
        have e5 : nestedValue (.obj fs5) podAnnotationsPath =
            nestedValue (.obj fs4) podAnnotationsPath :=
          stepEnvironments_preserves p h5 (q := ["spec", "template"])
            "metadata" ["annotations"] rfl (by decide)
        have := patchPodMapStep_reapply (k := "spec")
          (l := ["template", "metadata", "annotations"]) hsl h4' e5
        simpa [stepPodAnnotations, hL] using this
  have s5 : stepEnvironments p fs5 = .ok fs5 := by
    cases hL : p.environments with
    | none => simp [stepEnvironments, hL]
    | some es =>
        rw [hL] at hsE
        have hse := sentinelEnv_prop (l := es) hsE
        have h5' : patchEnvStep es fs4 = .ok fs5 := by
          simpa [stepEnvironments, hL] using h5
        have := patchEnvStep_reapply hse h5' rfl
        simpa [stepEnvironments, hL] using this
  simp only [patchWorkloadAttrs, s1, Bind.bind, Except.bind, s2, s3, s4, s5]

/-- Concrete workload with no attributes at all (in particular no labels),
used to exercise removal of an absent key. -/
def c8w : Resource :=
  { id := "apps/v1:Deployment:default:app", type := .kubernetes,
    attributes := [], extensions := [] }

/-- Patcher that removes the (absent) label `team` via the sentinel value. -/
def c8p : Patcher :=
  { labels := some [("team", removalVal)], podLabels := none,
    annotations := none, podAnnotations := none, environments := none,
    jsonPatchers := none }

/-- What `PatchWorkload` produces on `c8w`/`c8p`: the metadata/labels maps
are materialized empty. -/
def c8w1 : Resource :=
  { id := "apps/v1:Deployment:default:app", type := .kubernetes,
    attributes := [("metadata", .obj [("labels", .obj [])])], extensions := [] }

/-- C8: the claim examines `PatchWorkload` under removal-sentinel patchers.
Removing an absent label succeeds, but it does not leave the workload
unchanged: the label map (and its `metadata` parent) is materialized empty,
so the output differs from the input.  This refutes the "leaves the workload
unchanged" part of the claim at a concrete input. -/
theorem c8_counterexample :
    PatchWorkload (some c8w) (some c8p) = .ok (some c8w1) ∧
      c8w1.attributes.length = 1 ∧ c8w.attributes.length = 0 := by
  refine ⟨?_, rfl, rfl⟩
  rfl

/-- C8 (amended): for every workload and every patcher all of whose label,
annotation, pod-label, pod-annotation and environment entries carry the
removal sentinel, if `PatchWorkload` succeeds then applying the same patcher
a second time succeeds and returns the same workload (idempotence); removal
of an already-absent key does not error, though it may materialize empty
collections. -/
theorem patchWorkload_sentinel_removal_idempotent
    (w : Resource) (p : Patcher) (res : Option Resource)
    (hs : sentinelOnly p = true)
    (h : PatchWorkload (some w) (some p) = .ok res) :
    PatchWorkload res (some p) = .ok res := by
  simp only [PatchWorkload] at h
  cases ha : patchWorkloadAttrs p w.attributes with
  | error e => rw [ha] at h; simp [Except.map] at h
  | ok fs5 =>
      rw [ha] at h
      simp only [Except.map, Except.ok.injEq] at h
      subst h
      simp only [PatchWorkload]
      rw [patchWorkloadAttrs_idem hs ha]
      rfl

/-- Closed witness for the amended C8 theorem at `c8w`/`c8p`. -/
theorem patchWorkload_sentinel_removal_idempotent_witness :
    PatchWorkload (some c8w1) (some c8p) = .ok (some c8w1) :=
  patchWorkload_sentinel_removal_idempotent c8w c8p (some c8w1)
    (by rfl) (by rfl)

/-! ## Environment-variable merge ordering (C1) -/

/-- A patcher carrying only environment entries. -/
def envOnlyPatcher (es : List EnvVar) : Patcher :=
  { labels := none, podLabels := none, annotations := none,
    podAnnotations := none, environments := some es, jsonPatchers := none }

/-- The env list of a container object (empty when the field is absent). -/
def containerEnvs (fields : SMap Value) : List Value :=
  match SMap.get? fields "env" with
  | some (.arr es) => es
  | _ => []

/-- A container the env patch can process: an object whose `env` field is
absent or a list. -/
def containerOk (c : Value) : Bool :=
  match c with
  | .obj fields =>
      match SMap.get? fields "env" with
      | some (.arr _) => true
      | none => true
      | some _ => false
  | _ => false

/-- The container produced by a merge-only env patch: the merge entries in
reverse patch order, ahead of the pre-existing entries. -/
def mergedContainer (es : List EnvVar) (c : Value) : Value :=
  match c with
  | .obj fields =>
      .obj (SMap.set fields "env"
        (.arr ((es.map envVarValue).reverse ++ containerEnvs fields)))
  | v => v

theorem foldl_prepend_rev (es : List EnvVar) (init : List Value) :
    es.foldl (fun acc e => envVarValue e :: acc) init =
      (es.map envVarValue).reverse ++ init := by
  induction es generalizing init with
  | nil => simp
  | cons e rest ih =>
      simp only [List.foldl_cons, List.map_cons, List.reverse_cons, ih]
      simp

theorem partition_nonsentinel {es : List EnvVar}
    (hm : ∀ e ∈ es, e.value ≠ removalVal) :
    es.partition (fun e => e.value = removalVal) = ([], es) := by
  rw [List.partition_eq_filter_filter]
  refine Prod.ext ?_ ?_
  · simp only []
    exact List.filter_eq_nil_iff.mpr (fun a ha => by simp [hm a ha])
  · simp only []
    exact List.filter_eq_self.mpr (fun a ha => by simp [hm a ha])

theorem mapME_map {f : Value → Except String Value} {g : Value → Value}
    {l : List Value} (h : ∀ x ∈ l, f x = .ok (g x)) :
    mapME f l = .ok (l.map g) := by
  induction l with
  | nil => rfl
  | cons x rest ih =>
      have hx := h x (by simp)
      have hr := ih (fun y hy => h y (by simp [hy]))
      simp [mapME, hx, hr, Bind.bind, Except.bind]

theorem setPathF_of_found {fs : SMap Value} {k : String} {l : List String}
    {v0 : Value} (h : nestedValue (.obj fs) (k :: l) = .found v0) (x : Value) :
    ∃ fs', setPathF fs (k :: l) x = .ok fs' := by
  have aux : ∀ (p : List String) (v : Value) (w0 : Value),
      nestedValue v p = .found w0 → ∃ v', setPath v p x = .ok v' := by
    intro p
    induction p with
    | nil => intro v w0 _; exact ⟨x, by cases v <;> rfl⟩
    | cons a as ih =>
        intro v w0 hv
        cases v with
        | obj g =>
            simp only [nestedValue] at hv
            cases hg : SMap.get? g a with
            | none => rw [hg] at hv; cases hv
            | some c =>
                rw [hg] at hv
                obtain ⟨c', hc'⟩ := ih c w0 hv
                exact ⟨.obj (SMap.set g a c'),
                  by simp [setPath, hg, hc', Except.map]⟩
        | null => simp [nestedValue] at hv
        | bool b => simp [nestedValue] at hv
        | num n => simp [nestedValue] at hv
        | str s => simp [nestedValue] at hv
        | arr l => simp [nestedValue] at hv
  simp only [nestedValue] at h
  cases hg : SMap.get? fs k with
  | none => rw [hg] at h; cases h
  | some c =>
      rw [hg] at h
      obtain ⟨c', hc'⟩ := aux l c v0 h
      exact ⟨SMap.set fs k c', by simp [setPathF, hg, hc', Except.map]⟩

theorem patchContainer_merge_only {es : List EnvVar} {c : Value}
    (hok : containerOk c = true) :
    patchContainer [] es c = .ok (mergedContainer es c) := by
  cases c with
  | obj fields =>
      simp only [containerOk] at hok
      cases hg : SMap.get? fields "env" with
      | none =>
          simp [patchContainer, hg, removeEnvs_nil, Bind.bind, Except.bind,
            mergedContainer, containerEnvs, foldl_prepend_rev]
      | some v =>
          rw [hg] at hok
          cases v with
          | arr es0 =>
              simp [patchContainer, hg, removeEnvs_nil, Bind.bind,
                Except.bind, mergedContainer, containerEnvs,
                foldl_prepend_rev]
          | null => cases hok
          | bool b => cases hok
          | num n => cases hok
          | str s => cases hok
          | obj l => cases hok
  | null => cases hok
  | bool b => cases hok
  | num n => cases hok
  | str s => cases hok
  | arr l => cases hok

/-- C1 (amended): `PatchWorkload` places all merge entries of the
environment patch ahead of each container's pre-existing entries, but in
REVERSE patch order (each entry is prepended in turn), not in patch order. -/
theorem patchWorkload_env_prepend_reversed
    (es : List EnvVar) (w : Resource) (cs : List Value)
    (hm : ∀ e ∈ es, e.value ≠ removalVal)
    (hc : nestedValue (.obj w.attributes) containersPath = .found (.arr cs))
    (hwf : ∀ c ∈ cs, containerOk c = true) :
    ∃ fs', PatchWorkload (some w) (some (envOnlyPatcher es)) =
        .ok (some { w with attributes := fs' }) ∧
      nestedValue (.obj fs') containersPath =
        .found (.arr (cs.map (mergedContainer es))) := by
  have hmap : mapME (patchContainer [] es) cs =
      .ok (cs.map (mergedContainer es)) :=
    mapME_map (fun c hcm => patchContainer_merge_only (hwf c hcm))
  obtain ⟨fs', hset⟩ := setPathF_of_found (k := "spec")
    (l := ["template", "spec", "containers"]) hc
    (.arr (cs.map (mergedContainer es)))
  have hset2 : setPathF w.attributes containersPath
      (.arr (cs.map (mergedContainer es))) = .ok fs' := hset
  refine ⟨fs', ?_, setPathF_get hset⟩
  simp only [PatchWorkload, patchWorkloadAttrs, envOnlyPatcher, stepLabels,
    stepPodLabels, stepAnnotations, stepPodAnnotations, stepEnvironments,
    Bind.bind, Except.bind, patchEnvStep, partition_nonsentinel hm]
  rw [hc]
  simp only [hmap]
  rw [hset2]
  rfl

/-- Concrete workload for C1: one container with the single env entry `X`. -/
def c1w : Resource :=
  { id := "apps/v1:Deployment:default:app", type := .kubernetes,
    attributes := [("spec", .obj [("template", .obj [("spec", .obj
      [("containers", .arr [.obj [("name", .str "main"),
        ("env", .arr [.obj [("name", .str "X"), ("value", .str "1")]])]])])])])],
    extensions := [] }

/-- Concrete patcher for C1: merge entries `A` then `B`, in that order. -/
def c1p : Patcher := envOnlyPatcher [⟨"A", "1"⟩, ⟨"B", "2"⟩]

/-- Names, in order, of the first container's env list of a workload. -/
def firstContainerEnvNames (r : Option Resource) : List String :=
  match r with
  | some w =>
      match nestedValue (.obj w.attributes) containersPath with
      | .found (.arr (c :: _)) =>
          match c with
          | .obj fields =>
              (containerEnvs fields).foldr (fun e acc =>
                match e with
                | .obj f =>
                    match SMap.get? f "name" with
                    | some (.str s) => s :: acc
                    | _ => acc
                | _ => acc) []
          | _ => []
      | _ => []
  | none => []

/-- Env names of c1w after `PatchWorkload` with the patch `[A, B]`. -/
def c1names : List String :=
  match PatchWorkload (some c1w) (some c1p) with
  | .ok r => firstContainerEnvNames r
  | .error e => [e]

/-- C1: the claim says the merge entries `A`, `B` appear in patch order ahead
of the pre-existing entry `X` (`["A", "B", "X"]`).  The code prepends each
entry in turn, producing `["B", "A", "X"]`, so the claim fails at this
input. -/
theorem c1_counterexample :
    c1names = ["B", "A", "X"] ∧ c1names ≠ ["A", "B", "X"] := by
  constructor
  · rfl
  · intro hcontra
    have : (["B", "A", "X"] : List String) = ["A", "B", "X"] := by
      rw [← hcontra]
      rfl
    simp at this

/-- Closed witness for the amended C1 theorem: patching `c1w` with entries
`A`, `B` yields the reversed merge block ahead of the old entries. -/
theorem patchWorkload_env_prepend_reversed_witness :
    ∃ fs', PatchWorkload (some c1w) (some (envOnlyPatcher [⟨"A", "1"⟩, ⟨"B", "2"⟩])) =
        .ok (some { c1w with attributes := fs' }) ∧
      nestedValue (.obj fs') containersPath =
        .found (.arr ([Value.obj [("name", .str "main"),
            ("env", .arr [.obj [("name", .str "X"), ("value", .str "1")]])]].map
          (mergedContainer [⟨"A", "1"⟩, ⟨"B", "2"⟩]))) :=
  patchWorkload_env_prepend_reversed [⟨"A", "1"⟩, ⟨"B", "2"⟩] c1w
    [Value.obj [("name", .str "main"),
      ("env", .arr [.obj [("name", .str "X"), ("value", .str "1")]])]]
    (by decide) (by rfl) (by decide)

/-! ## `callModules` (module orchestration and workload identification) -/

/-- A decoded `proto.GeneratorResponse`: resource documents plus an optional
patcher. -/
structure GenResponse where
  resources : List Resource
  patcher : Option Patcher

/-- One iteration entry of the `indexModuleConfig` range loop: the module
key, the `healthPolicy` platform-config field of this module, and the plugin
response `invokeModule` returns for it.  The entry list order is the Go map
iteration order. -/
structure ModuleEntry where
  key : String
  healthPolicy : Option Value
  response : GenResponse

/-- `workload.Extensions[isWorkload] = true` (a native boolean). -/
def markWorkload (r : Resource) : Resource :=
  { r with extensions := SMap.set r.extensions isWorkload (.bool true) }

/-- `patchHealthPolicy`: shallow-copy a generic-config health policy into
the resource's extensions; a non-config value is ignored. -/
def patchHealthPolicy (r : Resource) (healthPolicy : Value) : Resource :=
  match healthPolicy with
  | .obj hp => { r with extensions := SMap.set r.extensions FieldHealthPolicy (.obj hp) }
  | _ => r

/-- The `healthPolicy != nil && workload != nil` guard of the single-resource
branch. -/
def withHealthPolicy (r : Resource) : Option Value → Resource
  | some hp => patchHealthPolicy r hp
  | none => r

/-- Read the `apiVersion`/`kind` string fields of a document (absent reads
as empty; a present non-string value aborts the Go call via a type
assertion and is out of scope of the claims here). -/
def getAPIVersionKind (m : SMap Value) : String × String :=
  ((match SMap.get? m "apiVersion" with | some (.str s) => s | _ => ""),
   (match SMap.get? m "kind" with | some (.str s) => s | _ => ""))

/-- `strings.EqualFold` (ASCII case-insensitive equality suffices here). -/
def equalFold (a b : String) : Bool :=
  a.toLower == b.toLower

/-- The health-policy cross-match loop: attach this module's health policy to
every already-assembled Kubernetes resource whose apiVersion/kind match it
case-insensitively. -/
def applyHealthPolicyToResources (healthPolicy : Option Value)
    (rs : List Resource) : List Resource :=
  match healthPolicy with
  | some (.obj hp) =>
      rs.map (fun res =>
        if res.type = .kubernetes then
          if equalFold (getAPIVersionKind res.attributes).1
                (getAPIVersionKind hp).1 &&
              equalFold (getAPIVersionKind res.attributes).2
                (getAPIVersionKind hp).2 then
            patchHealthPolicy res (.obj hp)
          else res
        else res)
  | _ => rs

/-- The `temp.Extensions[isWorkload] == "true"` comparison (a Go interface
comparison against the string `"true"`). -/
def isFlaggedTrue (r : Resource) : Bool :=
  match SMap.get? r.extensions isWorkload with
  | some (.str s) => s == "true"
  | _ => false

/-- The else-branch loop over a response's resources: an `is-workload`
flagged resource (of the workload's module) replaces the current workload,
everything else is appended to the plain resource list. -/
def assembleElse (isWlModule : Bool) (rs : List Resource)
    (wl0 : Option Resource) (acc : List Resource) :
    Option Resource × List Resource :=
  rs.foldl (fun st r =>
    if isWlModule && isFlaggedTrue r then (some r, st.2)
    else (st.1, st.2 ++ [r])) (wl0, acc)

/-- Parse one module response: the single resource of the workload's module
is the workload (marked, health policy attached); otherwise the else-branch
loop runs. -/
def assembleResponse (workloadKey t : String) (hp : Option Value)
    (rs : List Resource) (wl0 : Option Resource) (acc : List Resource) :
    Option Resource × List Resource :=
  if workloadKey = t then
    match rs with
    | [r] => (some (withHealthPolicy (markWorkload r) hp), acc)
    | rs => assembleElse true rs wl0 acc
  else assembleElse false rs wl0 acc

/-- Accumulated state of the `callModules` range loop. -/
structure CallState where
  workload : Option Resource
  resources : List Resource
  patchers : List Patcher

/-- One iteration of the `callModules` range loop: parse the module result,
run the health-policy cross-match over the accumulated plain resources, and
accumulate the patcher. -/
def callModulesStep (workloadKey : String) (s : CallState) (e : ModuleEntry) :
    CallState :=
  let wr := assembleResponse workloadKey e.key e.healthPolicy
    e.response.resources s.workload s.resources
  { workload := wr.1,
    resources := applyHealthPolicyToResources e.healthPolicy wr.2,
    patchers := s.patchers ++
      (match e.response.patcher with | some pa => [pa] | none => []) }

/-- The `for t, config := range indexModuleConfig` loop of `callModules`,
iterating the module index in the given (Go-map) order. -/
def callModulesLoop (workloadKey : String) (entries : List ModuleEntry) :
    CallState :=
  entries.foldl (callModulesStep workloadKey) ⟨none, [], []⟩

theorem option_or_getD {α : Type} (o : Option α) (a : α) :
    some (o.getD a) = o.or (some a) := by
  cases o <;> rfl

theorem getLast?_cons_or {α : Type} (a : α) (l : List α) :
    (a :: l).getLast? = l.getLast?.or (some a) := by
  rw [List.getLast?_cons]
  exact option_or_getD _ _

theorem assembleElse_true_eq (rs : List Resource) (wl0 : Option Resource)
    (acc : List Resource) :
    assembleElse true rs wl0 acc =
      ((rs.filter isFlaggedTrue).getLast?.or wl0,
        acc ++ rs.filter (fun r => !isFlaggedTrue r)) := by
  induction rs generalizing wl0 acc with
  | nil => simp [assembleElse]
  | cons r rest ih =>
      cases hf : isFlaggedTrue r with
      | true =>
          have step : assembleElse true (r :: rest) wl0 acc =
              assembleElse true rest (some r) acc := by
            simp [assembleElse, hf]
          rw [step, ih]
          rw [List.filter_cons_of_pos (by simp [hf]), getLast?_cons_or]
          rw [Option.or_assoc]
          simp [List.filter_cons_of_neg, hf]
      | false =>
          have step : assembleElse true (r :: rest) wl0 acc =
              assembleElse true rest wl0 (acc ++ [r]) := by
            simp [assembleElse, hf]
          rw [step, ih]
          rw [List.filter_cons_of_neg (by simp [hf]),
            List.filter_cons_of_pos (by simp [hf])]
          simp

theorem assembleElse_false_eq (rs : List Resource) (wl0 : Option Resource)
    (acc : List Resource) :
    assembleElse false rs wl0 acc = (wl0, acc ++ rs) := by
  induction rs generalizing acc with
  | nil => simp [assembleElse]
  | cons r rest ih =>
      have step : assembleElse false (r :: rest) wl0 acc =
          assembleElse false rest wl0 (acc ++ [r]) := by
        simp [assembleElse]
      rw [step, ih]
      simp

/-- C5: when the invoked module's key equals the workload's key and the
response holds exactly one resource, that resource becomes the workload no
matter what its extensions say, the `is-workload` marker is set (as a
boolean `true`) in its extensions, and nothing is appended to the plain
resource list. -/
theorem callModules_single_resource_is_workload
    (wk : String) (s : CallState) (e : ModuleEntry) (r : Resource)
    (hkey : e.key = wk) (hres : e.response.resources = [r]) :
    ∃ w, (callModulesStep wk s e).workload = some w ∧
      w.id = r.id ∧ w.type = r.type ∧ w.attributes = r.attributes ∧
      SMap.get? w.extensions isWorkload = some (.bool true) ∧
      (callModulesStep wk s e).resources =
        applyHealthPolicyToResources e.healthPolicy s.resources := by
  refine ⟨withHealthPolicy (markWorkload r) e.healthPolicy, ?_, ?_, ?_, ?_, ?_, ?_⟩
  · simp [callModulesStep, assembleResponse, hkey, hres]
  · cases hp : e.healthPolicy with
    | none => rfl
    | some v => cases v <;> rfl
  · cases hp : e.healthPolicy with
    | none => rfl
    | some v => cases v <;> rfl
  · cases hp : e.healthPolicy with
    | none => rfl
    | some v => cases v <;> rfl
  · cases hp : e.healthPolicy with
    | none => simp [withHealthPolicy, markWorkload, SMap.get_set]
    | some v =>
        cases v <;>
          simp [withHealthPolicy, patchHealthPolicy, markWorkload,
            SMap.get_set, SMap.get_set_ne _ _ _ _
              (by decide : FieldHealthPolicy ≠ isWorkload)]
  · simp [callModulesStep, assembleResponse, hkey, hres]

/-- Concrete one-resource response input for the C5 witness: the resource
even carries a contrary `is-workload` marker, which is overridden. -/
def c5r : Resource :=
  { id := "res0", type := .kubernetes, attributes := [],
    extensions := [(isWorkload, .str "false")] }

def c5e : ModuleEntry := ⟨"m/a@v1", none, ⟨[c5r], none⟩⟩

def c5s : CallState := ⟨none, [], []⟩

/-- Closed witness for C5 at a concrete state and one-resource response. -/
theorem callModules_single_resource_is_workload_witness :
    ∃ w, (callModulesStep "m/a@v1" c5s c5e).workload = some w ∧
      w.id = c5r.id ∧ w.type = c5r.type ∧ w.attributes = c5r.attributes ∧
      SMap.get? w.extensions isWorkload = some (.bool true) ∧
      (callModulesStep "m/a@v1" c5s c5e).resources =
        applyHealthPolicyToResources c5e.healthPolicy c5s.resources :=
  callModules_single_resource_is_workload "m/a@v1" c5s c5e c5r rfl rfl

/-- C2 (amended): when the module key equals the workload's key and the
response does not hold exactly one resource, the LAST emitted resource whose
`is-workload` extension is the string `"true"` becomes the workload
(overwriting any earlier flagged one, which is dropped from the graph), and
only the unflagged resources are appended to the plain resource list. -/
theorem callModules_multi_resource_last_flagged
    (wk : String) (s : CallState) (e : ModuleEntry)
    (hkey : e.key = wk) (hlen : e.response.resources.length ≠ 1) :
    (callModulesStep wk s e).workload =
      (e.response.resources.filter isFlaggedTrue).getLast?.or s.workload ∧
    (callModulesStep wk s e).resources =
      applyHealthPolicyToResources e.healthPolicy
        (s.resources ++ e.response.resources.filter (fun r => !isFlaggedTrue r)) := by
  have hif : wk = e.key := hkey.symm
  simp only [callModulesStep, assembleResponse, if_pos hif]
  cases hrs : e.response.resources with
  | nil => simp [assembleElse_true_eq]
  | cons r1 rest =>
      cases rest with
      | nil => exact absurd (by simp [hrs]) hlen
      | cons r2 rest2 => simp [assembleElse_true_eq]

/-- Three resources from the workload's module: the first two both flagged
`"true"`, the third unflagged. -/
def c2r1 : Resource :=
  { id := "r1", type := .kubernetes, attributes := [],
    extensions := [(isWorkload, .str "true")] }

def c2r2 : Resource :=
  { id := "r2", type := .kubernetes, attributes := [],
    extensions := [(isWorkload, .str "true")] }

def c2r3 : Resource :=
  { id := "r3", type := .kubernetes, attributes := [], extensions := [] }

def c2entry : ModuleEntry := ⟨"wl@v1", none, ⟨[c2r1, c2r2, c2r3], none⟩⟩

def c2state : CallState := callModulesLoop "wl@v1" [c2entry]

/-- C2: with two resources flagged `"true"`, the code selects the LAST one
(`r2`) as the workload, not the first (`r1`), and `r1` is silently dropped:
the plain list holds only `r3`, not `r2, r3` as the claim requires. -/
theorem c2_counterexample :
    c2state.workload.map (fun w => w.id) = some "r2" ∧
      c2state.resources.map (fun r => r.id) = ["r3"] ∧
      c2state.workload.map (fun w => w.id) ≠ some "r1" ∧
      c2state.resources.map (fun r => r.id) ≠ ["r2", "r3"] :=
  ⟨rfl, rfl, by decide, by decide⟩

/-- Closed witness for the amended C2 theorem at the `c2entry` response. -/
theorem callModules_multi_resource_last_flagged_witness :
    (callModulesStep "wl@v1" ⟨none, [], []⟩ c2entry).workload =
      (c2entry.response.resources.filter isFlaggedTrue).getLast?.or none ∧
    (callModulesStep "wl@v1" ⟨none, [], []⟩ c2entry).resources =
      applyHealthPolicyToResources c2entry.healthPolicy
        ([] ++ c2entry.response.resources.filter (fun r => !isFlaggedTrue r)) :=
  callModules_multi_resource_last_flagged "wl@v1" ⟨none, [], []⟩ c2entry
    rfl (by decide)

/-- Plain-resource contribution of one module entry (empty for the workload
module's single-resource response; unflagged resources for the multi-resource
response of the workload module; everything otherwise). -/
def plainOf (wk : String) (e : ModuleEntry) : List Resource :=
  if wk = e.key then
    match e.response.resources with
    | [_] => []
    | rs => rs.filter (fun r => !isFlaggedTrue r)
  else e.response.resources

theorem callModulesLoop_resources_aux (wk : String)
    (entries : List ModuleEntry) (s : CallState)
    (hnp : ∀ e ∈ entries, e.healthPolicy = none) :
    (entries.foldl (callModulesStep wk) s).resources =
      s.resources ++ (entries.map (plainOf wk)).flatten := by
  induction entries generalizing s with
  | nil => simp
  | cons e rest ih =>
      have he : e.healthPolicy = none := hnp e (by simp)
      have hrest : ∀ x ∈ rest, x.healthPolicy = none :=
        fun x hx => hnp x (by simp [hx])
      rw [List.foldl_cons, ih _ hrest]
      have hstep : (callModulesStep wk s e).resources =
          s.resources ++ plainOf wk e := by
        simp only [callModulesStep, he, applyHealthPolicyToResources]
        by_cases hk : wk = e.key
        · simp only [assembleResponse, if_pos hk, plainOf]
          cases hrs : e.response.resources with
          | nil => simp [assembleElse_true_eq]
          | cons r1 rest2 =>
              cases rest2 with
              | nil => simp
              | cons r2 rest3 => simp [assembleElse_true_eq]
        · simp only [assembleResponse, if_neg hk, plainOf,
            assembleElse_false_eq]
      rw [hstep]
      simp

/-- C3 (amended): the output's plain resource list is exactly the
concatenation of each module's contribution in the order the module index is
iterated (shown with no health policies configured); the source iterates a
Go map, which guarantees no particular order, so the output is determined by
— and varies with — that iteration order. -/
theorem callModules_resources_follow_iteration_order (wk : String)
    (entries : List ModuleEntry)
    (hnp : ∀ e ∈ entries, e.healthPolicy = none) :
    (callModulesLoop wk entries).resources =
      (entries.map (plainOf wk)).flatten := by
  have := callModulesLoop_resources_aux wk entries ⟨none, [], []⟩ hnp
  simpa [callModulesLoop] using this

def c3ra : Resource :=
  { id := "a", type := .kubernetes, attributes := [], extensions := [] }

def c3rb : Resource :=
  { id := "b", type := .kubernetes, attributes := [], extensions := [] }

def c3e1 : ModuleEntry := ⟨"mod/a@v1", none, ⟨[c3ra], none⟩⟩

def c3e2 : ModuleEntry := ⟨"mod/b@v1", none, ⟨[c3rb], none⟩⟩

/-- C3: two iteration orders of the same module index produce different
resource graphs — the code fixes no total order over module keys, so the
output is not reproducible across runs. -/
theorem c3_counterexample :
    (callModulesLoop "wl@v0" [c3e1, c3e2]).resources.map (fun r => r.id) =
        ["a", "b"] ∧
      (callModulesLoop "wl@v0" [c3e2, c3e1]).resources.map (fun r => r.id) =
        ["b", "a"] ∧
      (["a", "b"] : List String) ≠ ["b", "a"] :=
  ⟨rfl, rfl, by decide⟩

/-- Closed witness for the amended C3 theorem at a two-module index. -/
theorem callModules_resources_follow_iteration_order_witness :
    (callModulesLoop "wl@v0" [c3e1, c3e2]).resources =
      ([c3e1, c3e2].map (plainOf "wl@v0")).flatten :=
  callModules_resources_follow_iteration_order "wl@v0" [c3e1, c3e2]
    (by
      intro e he
      simp only [List.mem_cons, List.not_mem_nil, or_false] at he
      rcases he with rfl | rfl <;> rfl)

/-! ## `callModules` teardown: defer, recover, plugin kill (C4) -/

/-- Go error values of the `callModules` teardown: a plain message
(`errors.New`/`fmt.Errorf`), or the `"kill modules failed %w. %s"` wrapper
around the previous error (`wrapKillNil` when the previous error was nil). -/
inductive GoError where
  | base (msg : String) : GoError
  | wrapKill (prev : GoError) (killMsg : String) : GoError
  | wrapKillNil (killMsg : String) : GoError
deriving DecidableEq, Repr

/-- A recovered panic value, as the `switch x := e.(type)` sees it. -/
inductive PanicValue where
  | str (s : String) : PanicValue
  | err (e : GoError) : PanicValue
  | other : PanicValue

/-- How the body of `callModules` reaches the deferred block. -/
inductive BodyOutcome (α : Type) where
  | ok (a : α) : BodyOutcome α
  | fail (e : GoError) : BodyOutcome α
  | panicked (p : PanicValue) : BodyOutcome α

/-- The recover switch: a string panic becomes
`"call modules panic:" ++ s`, an error panic becomes that error, anything
else the unknown-panic error. -/
def recoverToError : PanicValue → GoError
  | .str s => .base ("call modules panic:" ++ s)
  | .err e => e
  | .other => .base "call modules unknown panic"

/-- The named error return as the deferred block starts: nil on success, the
body's error on error return, the recovered conversion on panic. -/
def errOf {α : Type} : BodyOutcome α → Option GoError
  | .ok _ => none
  | .fail e => some e
  | .panicked p => some (recoverToError p)

/-- One handle of `pluginMap`, with the outcome of its `KillPluginClient`
call (`none` = kill succeeds). -/
structure PluginHandle where
  key : String
  killResult : Option String

/-- The kill loop of the deferred block (list order = map iteration order):
kill every handle, wrapping each kill failure around the current error, and
log the kill calls issued. -/
def runKills : List PluginHandle → Option GoError → Option GoError × List String
  | [], e0 => (e0, [])
  | p :: rest, e0 =>
      let e1 := match p.killResult with
        | none => e0
        | some m =>
            some (match e0 with
              | some e => GoError.wrapKill e m
              | none => GoError.wrapKillNil m)
      let r := runKills rest e1
      (r.1, p.key :: r.2)

/-- The complete exit path of `callModules`: recover, then tear down every
plugin handle created during the call.  The result keeps the body's value
alongside the final error (Go named returns), plus the kill log. -/
def callModulesFinish {α : Type} (outcome : BodyOutcome α)
    (plugins : List PluginHandle) : (Option α × Option GoError) × List String :=
  let r0 : Option α := match outcome with
    | .ok a => some a
    | _ => none
  let ke := runKills plugins (errOf outcome)
  ((r0, ke.1), ke.2)

/-- Structural containment: the wrapped error still holds `e0`. -/
def GoError.contains : GoError → GoError → Bool
  | e, e0 =>
      (e == e0) ||
        match e with
        | .wrapKill prev _ => GoError.contains prev e0
        | _ => false

theorem GoError.contains_refl (e : GoError) : e.contains e = true := by
  cases e <;> simp [GoError.contains]

theorem runKills_log (plugins : List PluginHandle) (e0 : Option GoError) :
    (runKills plugins e0).2 = plugins.map (fun p => p.key) := by
  induction plugins generalizing e0 with
  | nil => rfl
  | cons p rest ih => simp [runKills, ih]

theorem runKills_contains (plugins : List PluginHandle) (c e : GoError)
    (hc : c.contains e = true) :
    ∃ e', (runKills plugins (some c)).1 = some e' ∧ e'.contains e = true := by
  induction plugins generalizing c with
  | nil => exact ⟨c, rfl, hc⟩
  | cons p rest ih =>
      cases hk : p.killResult with
      | none =>
          obtain ⟨e', he', hce⟩ := ih c hc
          exact ⟨e', by simp [runKills, hk, he'], hce⟩
      | some m =>
          have hc2 : (GoError.wrapKill c m).contains e = true := by
            simp [GoError.contains]
            right
            exact hc
          obtain ⟨e', he', hce⟩ := ih _ hc2
          exact ⟨e', by simp [runKills, hk, he'], hce⟩

theorem runKills_all_ok (plugins : List PluginHandle) (e0 : Option GoError)
    (h : ∀ p ∈ plugins, p.killResult = none) :
    (runKills plugins e0).1 = e0 := by
  induction plugins generalizing e0 with
  | nil => rfl
  | cons p rest ih =>
      have hp := h p (by simp)
      simp [runKills, hp, ih _ (fun x hx => h x (by simp [hx]))]

/-- C4: on every exit path — normal return, error return, or panic — every
plugin handle created during the call is killed exactly once, in map order;
the recovered panic is converted per the source's switch (`errOf` applies
`recoverToError`); the primary error survives inside (is never masked by)
the aggregated kill-failure error; and when every kill succeeds the final
error is exactly the primary one. -/
theorem callModules_teardown {α : Type} (outcome : BodyOutcome α)
    (plugins : List PluginHandle) :
    (callModulesFinish outcome plugins).2 = plugins.map (fun p => p.key) ∧
    (∀ e, errOf outcome = some e →
      ∃ e', (callModulesFinish outcome plugins).1.2 = some e' ∧
        e'.contains e = true) ∧
    ((∀ p ∈ plugins, p.killResult = none) →
      (callModulesFinish outcome plugins).1.2 = errOf outcome) := by
  refine ⟨?_, ?_, ?_⟩
  · simp [callModulesFinish, runKills_log]
  · intro e he
    simp only [callModulesFinish, he]
    exact runKills_contains plugins e e (GoError.contains_refl e)
  · intro hall
    simp [callModulesFinish, runKills_all_ok plugins _ hall]

/-- Two concrete plugin handles, the first of which fails to die. -/
def c4plugins : List PluginHandle := [⟨"mod/a@v1", some "kill failed"⟩, ⟨"mod/b@v1", none⟩]

/-- Closed witness for C4: a string panic with one failing kill — both
handles are killed, and the converted panic error survives inside the
aggregated error. -/
theorem callModules_teardown_witness :
    (callModulesFinish (BodyOutcome.ok ()) c4plugins).2 =
        ["mod/a@v1", "mod/b@v1"] ∧
      (∃ e', (callModulesFinish (BodyOutcome.panicked (α := Unit)
          (.str "boom")) c4plugins).1.2 = some e' ∧
        e'.contains (.base "call modules panic:boom") = true) ∧
      (callModulesFinish (BodyOutcome.fail (α := Unit)
          (.base "invoke failed")) [⟨"mod/a@v1", none⟩]).1.2 =
        some (.base "invoke failed") :=
  ⟨(callModules_teardown (BodyOutcome.ok ()) c4plugins).1,
    (callModules_teardown (BodyOutcome.panicked (α := Unit) (.str "boom"))
        c4plugins).2.1 (.base "call modules panic:boom") rfl,
    (callModules_teardown (BodyOutcome.fail (α := Unit)
        (.base "invoke failed")) [⟨"mod/a@v1", none⟩]).2.2
      (by intro p hp; simp at hp; rw [hp])⟩

/-! ## `JSONPatch` (generic per-resource patch engine, C6/C7) -/

mutual
/-- RFC 7396 merge of a patch object's fields into a document's fields: a
null value deletes the key, an object value merges recursively, anything
else replaces. -/
def mergeFields : SMap Value → List (String × Value) → SMap Value
  | acc, [] => acc
  | acc, (k, .null) :: rest => mergeFields (SMap.del acc k) rest
  | acc, (k, pv) :: rest =>
      mergeFields
        (SMap.set acc k (mergePatchVal ((SMap.get? acc k).getD .null) pv)) rest

/-- RFC 7396 JSON merge patch of one value: an object patch merges field by
field (a non-object target counts as empty), any other patch replaces the
target. -/
def mergePatchVal : Value → Value → Value
  | t, .obj pf =>
      .obj (mergeFields (match t with | .obj tf => tf | _ => []) pf)
  | _, p => p
end

/-- `jsonpatch.DecodePatch`: the payload must decode as an operation list. -/
def decodePatch : PatchPayload → Except String (List PatchOp)
  | .ops l => .ok l
  | .doc _ => .error "decode json patch failed"

/-- Whether an `add` under `EnsurePathExistsOnAdd` can reach the path: every
intermediate that already exists must be an object; missing intermediates
are created. -/
def addable : Value → List String → Bool
  | _, [] => true
  | .obj fs, k :: ks =>
      match SMap.get? fs k with
      | some c => addable c ks
      | none => true
  | _, _ :: _ => false

/-- Apply one RFC 6902 operation with the two relaxations the source
configures on the evanphx/json-patch library (`AllowMissingPathOnRemove`,
`EnsurePathExistsOnAdd`); modelled from that library over object paths. -/
def applyOp (v : Value) : PatchOp → Except String Value
  | .addOp p x => setPath v p x
  | .removeOp p => .ok (removePath v p)
  | .replaceOp p x =>
      match getPath v p with
      | some _ => setPath v p x
      | none => .error "replace operation does not apply: doc is missing path"

/-- `patch.ApplyWithOptions`: fold the operations over the document. -/
def applyOps (v : Value) (ops : List PatchOp) : Except String Value :=
  ops.foldlM applyOp v

/-- Apply one `v1.JSONPatcher` to a resource's attribute document, per the
type switch of `JSONPatch`: `MergePatch`, `JSONPatch`, or a fatal
unsupported-patch-type error. -/
def applyJSONPatcher (attrs : SMap Value) (jp : JSONPatcher) :
    Except String (SMap Value) :=
  match jp.type with
  | .mergePatchType =>
      match jp.payload with
      | .doc (.obj pf) => .ok (mergeFields attrs pf)
      | _ => .error "merge patch failed"
  | .jsonPatchType => do
      let ops ← decodePatch jp.payload
      let modified ← applyOps (.obj attrs) ops
      match modified with
      | .obj fs => Except.ok fs
      | _ => .error "unmarshal patched attributes failed"
  | .otherType s => .error ("unsupported patch type:" ++ s)

/-- Update the resource bearing the given ID (resource IDs are unique in a
well-formed graph, which is how the source's `resources.Index()` map can be
keyed by ID). -/
def updateById (rs : List Resource) (id : String) (f : Resource → Resource) :
    List Resource :=
  match rs with
  | [] => []
  | r :: rest => if r.id = id then f r :: rest else r :: updateById rest id f

/-- The `for id, jsonPatcher := range patcher.JSONPatchers` loop (entry-list
order = Go map iteration order): an ID with no matching resource is logged
and skipped; a present one has its attributes replaced wholesale by the
patched document. -/
def JSONPatchEntries :
    List Resource → List (String × JSONPatcher) → Except String (List Resource)
  | rs, [] => .ok rs
  | rs, (id, jp) :: rest =>
      match rs.find? (fun r => r.id = id) with
      | none => JSONPatchEntries rs rest
      | some r => do
          let attrs2 ← applyJSONPatcher r.attributes jp
          JSONPatchEntries
            (updateById rs id (fun r0 => { r0 with attributes := attrs2 })) rest

/-- `JSONPatch`: a nil resource list, patcher, or `JSONPatchers` map is a
no-op; otherwise run the patcher loop. -/
def JSONPatch (resources : List Resource) (patcher : Option Patcher) :
    Except String (List Resource) :=
  match patcher with
  | none => .ok resources
  | some p =>
      match p.jsonPatchers with
      | none => .ok resources
      | some entries => JSONPatchEntries resources entries

/-- A patcher carrying only generic JSON patch entries. -/
def jsonPatcherOnly (entries : List (String × JSONPatcher)) : Patcher :=
  { labels := none, podLabels := none, annotations := none,
    podAnnotations := none, environments := none,
    jsonPatchers := some entries }

theorem updateById_any (rs : List Resource) (id : String) (attrs2 : SMap Value)
    (x : String) :
    (updateById rs id (fun r0 => { r0 with attributes := attrs2 })).any
        (fun r => r.id = x) =
      rs.any (fun r => r.id = x) := by
  induction rs with
  | nil => rfl
  | cons r rest ih =>
      by_cases hr : r.id = id
      · simp [updateById, hr]
      · simp [updateById, hr, ih]

theorem JSONPatchEntries_filter (entries : List (String × JSONPatcher))
    (rs : List Resource) :
    JSONPatchEntries rs entries =
      JSONPatchEntries rs
        (entries.filter (fun e => rs.any (fun r => r.id = e.1))) := by
  induction entries generalizing rs with
  | nil => rfl
  | cons e rest ih =>
      obtain ⟨id, jp⟩ := e
      cases hf : rs.find? (fun r => r.id = id) with
      | none =>
          have hany : rs.any (fun r => r.id = id) = false := by
            rw [List.any_eq_false]
            intro r hr
            have := List.find?_eq_none.mp hf r hr
            simpa using this
          rw [show JSONPatchEntries rs ((id, jp) :: rest) =
              JSONPatchEntries rs rest by simp [JSONPatchEntries, hf]]
          rw [List.filter_cons_of_neg (by simp [hany])]
          exact ih rs
      | some r =>
          have hmem := List.mem_of_find?_eq_some hf
          have hpr : r.id = id := by simpa using List.find?_some hf
          have hany : rs.any (fun y => y.id = id) = true := by
            rw [List.any_eq_true]
            exact ⟨r, hmem, by simpa using hpr⟩
          rw [List.filter_cons_of_pos (by simpa using hany)]
          simp only [JSONPatchEntries, hf]
          cases ha : applyJSONPatcher r.attributes jp with
          | error e2 => simp [Bind.bind, Except.bind]
          | ok attrs2 =>
              simp only [Bind.bind, Except.bind]
              rw [ih (updateById rs id (fun r0 => { r0 with attributes := attrs2 }))]
              congr 1
              refine List.filter_congr ?_
              intro y _
              simp [updateById_any rs id attrs2 y.1]

/-- C6: resource IDs named in the patcher that match no resource are skipped
without failing the call — the loop behaves exactly as if the missing
entries were absent, so resources that are present are still patched; in
particular a patcher all of whose IDs are missing is a successful no-op. -/
theorem JSONPatch_missing_id_skipped (resources : List Resource)
    (entries : List (String × JSONPatcher)) :
    JSONPatch resources (some (jsonPatcherOnly entries)) =
      JSONPatch resources (some (jsonPatcherOnly
        (entries.filter (fun e => resources.any (fun r => r.id = e.1))))) ∧
    ((∀ e ∈ entries, resources.any (fun r => r.id = e.1) = false) →
      JSONPatch resources (some (jsonPatcherOnly entries)) = .ok resources) := by
  constructor
  · simpa [JSONPatch, jsonPatcherOnly] using
      JSONPatchEntries_filter entries resources
  · intro hall
    have h1 := JSONPatchEntries_filter entries resources
    rw [List.filter_eq_nil_iff.mpr (fun e he => by simp [hall e he])] at h1
    simpa [JSONPatch, jsonPatcherOnly, JSONPatchEntries] using h1

theorem removePath_missing {v : Value} {p : List String}
    (h : getPath v p = none) : removePath v p = v := by
  induction p generalizing v with
  | nil =>
      exfalso
      cases v <;> simp [getPath, nestedValue] at h
  | cons k ks ih =>
      cases v with
      | obj fs =>
          cases ks with
          | nil =>
              simp only [getPath, nestedValue] at h
              cases hg : SMap.get? fs k with
              | none => simp [removePath, SMap.del_of_get_none fs k hg]
              | some c => simp [hg, nestedValue] at h
          | cons k2 ks2 =>
              simp only [getPath, nestedValue] at h
              cases hg : SMap.get? fs k with
              | none => simp [removePath, hg]
              | some c =>
                  simp only [hg] at h
                  have hc : getPath c (k2 :: ks2) = none := h
                  simp [removePath, hg, ih hc, SMap.set_same fs k c hg]
      | null => cases ks <;> rfl
      | bool b => cases ks <;> rfl
      | num n => cases ks <;> rfl
      | str s => cases ks <;> rfl
      | arr l => cases ks <;> rfl

theorem setPath_creates (ks : List String) (x : Value) :
    ∃ v', setPath (.obj []) ks x = .ok v' := by
  induction ks with
  | nil => exact ⟨x, rfl⟩
  | cons k rest ih =>
      obtain ⟨v', hv'⟩ := ih
      refine ⟨.obj (SMap.set [] k v'), ?_⟩
      simp [setPath, SMap.get?, hv', Except.map]

theorem setPath_addable {v : Value} {p : List String} (x : Value)
    (h : addable v p = true) : ∃ v', setPath v p x = .ok v' := by
  induction p generalizing v with
  | nil => exact ⟨x, by cases v <;> rfl⟩
  | cons k ks ih =>
      cases v with
      | obj fs =>
          simp only [addable] at h
          cases hg : SMap.get? fs k with
          | some c =>
              rw [hg] at h
              obtain ⟨c', hc'⟩ := ih h
              exact ⟨.obj (SMap.set fs k c'),
                by simp [setPath, hg, hc', Except.map]⟩
          | none =>
              obtain ⟨c', hc'⟩ := setPath_creates ks x
              exact ⟨.obj (SMap.set fs k c'),
                by simp [setPath, hg, hc', Except.map]⟩
      | null => simp [addable] at h
      | bool b => simp [addable] at h
      | num n => simp [addable] at h
      | str s => simp [addable] at h
      | arr l => simp [addable] at h

theorem setPath_cons_obj {fs : SMap Value} {k : String} {ks : List String}
    {x v' : Value} (h : setPath (.obj fs) (k :: ks) x = .ok v') :
    ∃ fs', v' = .obj fs' := by
  simp only [setPath] at h
  cases hc : setPath ((SMap.get? fs k).getD (.obj [])) ks x with
  | error e => rw [hc] at h; simp [Except.map] at h
  | ok c =>
      rw [hc] at h
      simp [Except.map] at h
      exact ⟨_, h.symm⟩

theorem getPath_of_setPath {v : Value} {p : List String} {x v' : Value}
    (h : setPath v p x = .ok v') : getPath v' p = some x := by
  simp [getPath, setPath_get h]

theorem updateById_self {rs : List Resource} {id : String} {r : Resource}
    (h : rs.find? (fun x => x.id = id) = some r) :
    updateById rs id (fun r0 => { r0 with attributes := r.attributes }) = rs := by
  induction rs with
  | nil => simp [List.find?] at h
  | cons r1 rest ih =>
      by_cases hr : r1.id = id
      · rw [List.find?_cons_of_pos _ (by simp [hr])] at h
        injection h with h
        subst h
        simp only [updateById, if_pos hr]
      · rw [List.find?_cons_of_neg _ (by simp [hr])] at h
        simp [updateById, hr, ih h]

theorem find?_updateById {rs : List Resource} {id : String} {r : Resource}
    (attrs2 : SMap Value) (h : rs.find? (fun x => x.id = id) = some r) :
    (updateById rs id (fun r0 => { r0 with attributes := attrs2 })).find?
        (fun x => x.id = id) =
      some { r with attributes := attrs2 } := by
  induction rs with
  | nil => simp [List.find?] at h
  | cons r1 rest ih =>
      by_cases hr : r1.id = id
      · rw [List.find?_cons_of_pos _ (by simp [hr])] at h
        injection h with h
        subst h
        simp only [updateById, if_pos hr]
        exact List.find?_cons_of_pos _ (by simp [hr])
      · rw [List.find?_cons_of_neg _ (by simp [hr])] at h
        simp only [updateById, if_neg hr]
        rw [List.find?_cons_of_neg _ (by simp [hr])]
        exact ih h

/-- C7: applying a `JSONPatch`-typed patcher entry to a present resource,
a `remove` whose path does not resolve succeeds as a no-op; an `add` whose
intermediate segments may be missing (every existing intermediate an
object) succeeds and creates the path, which afterwards resolves to the
added value; and any patch type other than `MergePatch`/`JSONPatch` is a
fatal unsupported-patch-type error. -/
theorem JSONPatch_relaxed_ops (rs : List Resource) (id : String)
    (r : Resource) (hfind : rs.find? (fun x => x.id = id) = some r) :
    (∀ p, getPath (.obj r.attributes) p = none →
      JSONPatch rs (some (jsonPatcherOnly
        [(id, ⟨.jsonPatchType, .ops [.removeOp p]⟩)])) = .ok rs) ∧
    (∀ k ks x, addable (.obj r.attributes) (k :: ks) = true →
      ∃ fs', JSONPatch rs (some (jsonPatcherOnly
          [(id, ⟨.jsonPatchType, .ops [.addOp (k :: ks) x]⟩)])) =
          .ok (updateById rs id (fun r0 => { r0 with attributes := fs' })) ∧
        (updateById rs id (fun r0 => { r0 with attributes := fs' })).find?
            (fun y => y.id = id) = some { r with attributes := fs' } ∧
        getPath (.obj fs') (k :: ks) = some x) ∧
    (∀ s payload, JSONPatch rs (some (jsonPatcherOnly
        [(id, ⟨.otherType s, payload⟩)])) =
      .error ("unsupported patch type:" ++ s)) := by
  refine ⟨?_, ?_, ?_⟩
  · intro p hp
    simp only [JSONPatch, jsonPatcherOnly, JSONPatchEntries, hfind]
    have happ : applyJSONPatcher r.attributes ⟨.jsonPatchType, .ops [.removeOp p]⟩ =
        .ok r.attributes := by
      simp [applyJSONPatcher, decodePatch, applyOps, applyOp, Bind.bind,
        Except.bind, Pure.pure, Except.pure, removePath_missing hp]
    rw [happ]
    simp only [Bind.bind, Except.bind, JSONPatchEntries]
    rw [updateById_self hfind]
  · intro k ks x hadd
    obtain ⟨v', hv'⟩ := setPath_addable x hadd
    obtain ⟨fs', rfl⟩ := setPath_cons_obj hv'
    refine ⟨fs', ?_, find?_updateById fs' hfind, by
      have := getPath_of_setPath hv'
      simpa [getPath, nestedValue] using this⟩
    simp only [JSONPatch, jsonPatcherOnly, JSONPatchEntries, hfind]
    have happ : applyJSONPatcher r.attributes
        ⟨.jsonPatchType, .ops [.addOp (k :: ks) x]⟩ = .ok fs' := by
      simp [applyJSONPatcher, decodePatch, applyOps, applyOp, Bind.bind,
        Except.bind, Pure.pure, Except.pure, hv']
    rw [happ]
    simp [Bind.bind, Except.bind, JSONPatchEntries]
  · intro s payload
    simp [JSONPatch, jsonPatcherOnly, JSONPatchEntries, hfind,
      applyJSONPatcher, Bind.bind, Except.bind]

/-- Concrete resource for the C7 witness. -/
def c7r : Resource :=
  { id := "v1:Namespace:demo", type := .kubernetes,
    attributes := [("spec", .obj [])], extensions := [] }

/-- Closed witness for C7: remove of a missing path is a no-op, add creates
missing segments, and an unknown patch type is fatal, at concrete inputs. -/
theorem JSONPatch_relaxed_ops_witness :
    JSONPatch [c7r] (some (jsonPatcherOnly [("v1:Namespace:demo",
        ⟨.jsonPatchType, .ops [.removeOp ["metadata", "labels"]]⟩)])) =
      .ok [c7r] ∧
    (∃ fs', JSONPatch [c7r] (some (jsonPatcherOnly [("v1:Namespace:demo",
        ⟨.jsonPatchType, .ops [.addOp ["spec", "replicas", "value"]
          (.num 3)]⟩)])) =
        .ok (updateById [c7r] "v1:Namespace:demo"
          (fun r0 => { r0 with attributes := fs' })) ∧
      (updateById [c7r] "v1:Namespace:demo"
          (fun r0 => { r0 with attributes := fs' })).find?
          (fun y => y.id = "v1:Namespace:demo") =
        some { c7r with attributes := fs' } ∧
      getPath (.obj fs') ["spec", "replicas", "value"] = some (.num 3)) ∧
    JSONPatch [c7r] (some (jsonPatcherOnly [("v1:Namespace:demo",
        ⟨.otherType "StrategicMerge", .ops []⟩)])) =
      .error "unsupported patch type:StrategicMerge" := by
  have h := JSONPatch_relaxed_ops [c7r] "v1:Namespace:demo" c7r rfl
  exact ⟨h.1 ["metadata", "labels"] rfl,
    h.2.1 "spec" ["replicas", "value"] (.num 3) rfl,
    h.2.2 "StrategicMerge" (.ops [])⟩

/-! ## Imported-resource post-processor (C9) -/

/-- `patchImportedResources`: for every `(kusionID, importedID)` pair (list
order = map iteration order), if a resource with that ID exists in the
graph's ID index, record the imported ID under the reserved extension key
and clear that resource's attributes to an empty map. -/
def patchImportedResources (resources : List Resource)
    (imports : List (String × String)) : List Resource :=
  imports.foldl (fun rs kv =>
    if rs.any (fun r => r.id = kv.1) then
      updateById rs kv.1 (fun r =>
        { r with
          extensions := SMap.set r.extensions ImportIDKey (.str kv.2),
          attributes := [] })
    else rs) resources

/-- What one resource becomes under the imported-resource patch: cleared
attributes and the recorded import ID when its ID is named, untouched
otherwise. -/
def importPatched (imports : List (String × String)) (r : Resource) : Resource :=
  match SMap.get? imports r.id with
  | some iid =>
      { r with
        extensions := SMap.set r.extensions ImportIDKey (.str iid),
        attributes := [] }
  | none => r

theorem updateById_map_ids (rs : List Resource) (k : String)
    (f : Resource → Resource) (hf : ∀ r, (f r).id = r.id) :
    (updateById rs k f).map (fun r => r.id) = rs.map (fun r => r.id) := by
  induction rs with
  | nil => rfl
  | cons r rest ih =>
      by_cases hr : r.id = k
      · simp [updateById, hr, hf]
      · simp [updateById, hr, ih]

theorem updateById_eq_map (rs : List Resource) (k : String)
    (f : Resource → Resource) (huniq : (rs.map (fun r => r.id)).Nodup) :
    updateById rs k f = rs.map (fun r => if r.id = k then f r else r) := by
  induction rs with
  | nil => rfl
  | cons r rest ih =>
      simp only [List.map_cons, List.nodup_cons] at huniq
      obtain ⟨hnoid, hrest⟩ := huniq
      by_cases hr : r.id = k
      · subst hr
        have hmap : ∀ x ∈ rest, (if x.id = r.id then f x else x) = x := by
          intro x hx
          rw [if_neg]
          intro hxe
          exact hnoid (List.mem_map.mpr ⟨x, hx, hxe⟩)
        simp only [updateById, List.map_cons, if_true]
        rw [List.map_congr_left hmap, List.map_id']
      · simp only [updateById, if_neg hr, List.map_cons, ih hrest]

theorem SMap.get?_eq_none_of_not_mem {α : Type} (m : SMap α) (k : String)
    (h : k ∉ m.map Prod.fst) : SMap.get? m k = none := by
  induction m with
  | nil => rfl
  | cons kv rest ih =>
      simp only [List.map_cons, List.mem_cons] at h
      push_neg at h
      by_cases hk : kv.1 = k
      · exact absurd hk.symm h.1
      · simp [SMap.get?, hk, ih h.2]

/-- C9: under unique resource IDs and unique import keys,
`patchImportedResources` patches exactly the resources whose ID is named:
a named resource keeps its ID, type and all other extension entries,
gains the imported ID under the reserved key, and has its attributes
cleared; every other resource is left entirely unchanged. -/
theorem patchImportedResources_spec (resources : List Resource)
    (imports : List (String × String))
    (huniq : (resources.map (fun r => r.id)).Nodup)
    (hkeys : (imports.map Prod.fst).Nodup) :
    patchImportedResources resources imports =
      resources.map (importPatched imports) ∧
    (∀ r iid, SMap.get? imports r.id = some iid →
      (importPatched imports r).id = r.id ∧
      (importPatched imports r).type = r.type ∧
      (importPatched imports r).attributes = [] ∧
      SMap.get? (importPatched imports r).extensions ImportIDKey =
        some (.str iid) ∧
      (∀ k, k ≠ ImportIDKey →
        SMap.get? (importPatched imports r).extensions k =
          SMap.get? r.extensions k)) ∧
    (∀ r, SMap.get? imports r.id = none → importPatched imports r = r) := by
  refine ⟨?_, ?_, ?_⟩
  · induction imports generalizing resources with
    | nil =>
        simp only [patchImportedResources, List.foldl_nil]
        have : ∀ r ∈ resources, importPatched [] r = r := by
          intro r _
          simp [importPatched, SMap.get?]
        rw [List.map_congr_left this, List.map_id']
    | cons kv rest ih =>
        obtain ⟨k, v⟩ := kv
        simp only [List.map_cons, List.nodup_cons] at hkeys
        obtain ⟨hknot, hkrest⟩ := hkeys
        have hstep : patchImportedResources resources ((k, v) :: rest) =
            patchImportedResources
              (if resources.any (fun r => r.id = k) then
                updateById resources k (fun r =>
                  { r with
                    extensions := SMap.set r.extensions ImportIDKey (.str v),
                    attributes := [] })
              else resources) rest := by
          simp [patchImportedResources, List.foldl_cons]
        rw [hstep]
        by_cases hany : resources.any (fun r => r.id = k) = true
        · rw [if_pos hany]
          have hids : ((updateById resources k (fun r =>
              { r with
                extensions := SMap.set r.extensions ImportIDKey (.str v),
                attributes := [] })).map (fun r => r.id)).Nodup := by
            rw [updateById_map_ids resources k (fun r =>
              { r with
                extensions := SMap.set r.extensions ImportIDKey (.str v),
                attributes := [] }) (fun r => rfl)]
            exact huniq
          rw [ih _ hids hkrest]
          rw [updateById_eq_map _ _ _ huniq, List.map_map]
          refine List.map_congr_left ?_
          intro r _
          simp only [Function.comp]
          by_cases hr : r.id = k
          · rw [if_pos hr]
            have h1 : SMap.get? rest k = none :=
              SMap.get?_eq_none_of_not_mem rest k hknot
            simp [importPatched, h1, hr, SMap.get?]
          · rw [if_neg hr]
            simp only [importPatched, SMap.get?]
            rw [if_neg (fun hh => hr hh.symm)]
        · rw [if_neg hany]
          rw [ih _ huniq hkrest]
          refine List.map_congr_left ?_
          intro r hr
          have hrk : r.id ≠ k := by
            intro hh
            rw [List.any_eq_true] at hany
            exact hany ⟨r, hr, by simp [hh]⟩
          simp only [importPatched, SMap.get?]
          rw [if_neg (fun hh => hrk hh.symm)]
  · intro r iid hg
    refine ⟨?_, ?_, ?_, ?_, ?_⟩
    · simp [importPatched, hg]
    · simp [importPatched, hg]
    · simp [importPatched, hg]
    · simp [importPatched, hg, SMap.get_set]
    · intro k hk
      simp only [importPatched, hg]
      exact SMap.get_set_ne _ _ _ _ (fun hh => hk hh.symm)
  · intro r hg
    simp [importPatched, hg]

/-- Closed witness for C9 at a two-resource graph with one imported pair. -/
theorem patchImportedResources_spec_witness :
    patchImportedResources
        [{ id := "a", type := .terraform,
           attributes := [("x", .num 1)], extensions := [("e", .str "v")] },
         { id := "b", type := .kubernetes,
           attributes := [("y", .num 2)], extensions := [] }]
        [("a", "imported-a")] =
      [{ id := "a", type := .terraform,
         attributes := [("x", .num 1)], extensions := [("e", .str "v")] },
       { id := "b", type := .kubernetes,
         attributes := [("y", .num 2)], extensions := [] }].map
        (importPatched [("a", "imported-a")]) :=
  (patchImportedResources_spec
    [{ id := "a", type := .terraform,
       attributes := [("x", .num 1)], extensions := [("e", .str "v")] },
     { id := "b", type := .kubernetes,
       attributes := [("y", .num 2)], extensions := [] }]
    [("a", "imported-a")] (by simp) (by simp)).1

/-! ## Duplicate imported-resource IDs in `Generate` (C10) -/

/-- One step of the imported-resources collection loop of `Generate`: bind a
kusion ID, failing when it is already bound to a different imported ID
(message as in the source, the quotes around the ids elided). -/
def importStep (m : SMap String) (kv : String × String) :
    Except String (SMap String) :=
  match SMap.get? m kv.1 with
  | some id =>
      if id ≠ kv.2 then
        .error ("duplicate kusion id " ++ kv.1 ++
          " for importing different resources: " ++ id ++ " and " ++ kv.2)
      else .ok (SMap.set m kv.1 kv.2)
  | none => .ok (SMap.set m kv.1 kv.2)

/-- Fold one module's `importedResources` map into the accumulator (inner
loop; list order = Go map iteration order). -/
def collectPairs (m0 : SMap String) (pairs : List (String × String)) :
    Except String (SMap String) :=
  pairs.foldlM importStep m0

/-- The imported-resources pre-flight loop of `Generate` over every
module config (outer loop). -/
def collectImportedResources (cfgs : List (List (String × String))) :
    Except String (SMap String) :=
  cfgs.foldlM collectPairs []

/-- The `Generate` pipeline around that loop: imported resources are
collected before the built-in generators run and before any module plugin is
invoked; those later stages are oracle parameters here, since the claim is
exactly that they cannot influence the duplicate-ID failure. -/
def GenerateModel (cfgs : List (List (String × String)))
    (builtinGens : Except String (List Resource))
    (modules : Except String (Option Resource × List Resource × List Patcher))
    (post : SMap String → List Resource → Except String (List Resource)) :
    Except String (List Resource) := do
  let imports ← collectImportedResources cfgs
  let gen ← builtinGens
  let m ← modules
  post imports (gen ++ (match m.1 with | some w => [w] | none => []) ++ m.2.1)

theorem collectPairs_preserves {pairs : List (String × String)}
    {m0 m : SMap String} (h : collectPairs m0 pairs = .ok m) :
    ∀ k v, SMap.get? m0 k = some v → SMap.get? m k = some v := by
  induction pairs generalizing m0 with
  | nil =>
      intro k v hk
      simp only [collectPairs, List.foldlM_nil] at h
      injection h with h
      rw [← h]
      exact hk
  | cons kv rest ih =>
      intro k v hk
      simp only [collectPairs, List.foldlM_cons] at h
      cases hs : importStep m0 kv with
      | error e => rw [hs] at h; simp [Bind.bind, Except.bind] at h
      | ok m1 =>
          rw [hs] at h
          simp only [Bind.bind, Except.bind] at h
          refine ih h k v ?_
          simp only [importStep] at hs
          cases hg : SMap.get? m0 kv.1 with
          | some id =>
              simp only [hg] at hs
              by_cases hne : id ≠ kv.2
              · rw [if_pos hne] at hs; cases hs
              · rw [if_neg hne] at hs
                injection hs with hs
                subst hs
                push_neg at hne
                by_cases hkk : kv.1 = k
                · subst hkk
                  rw [SMap.get_set]
                  rw [hg] at hk
                  injection hk with hk
                  rw [← hk, hne]
                · rw [SMap.get_set_ne _ _ _ _ hkk]
                  exact hk
          | none =>
              simp only [hg] at hs
              injection hs with hs
              subst hs
              by_cases hkk : kv.1 = k
              · subst hkk
                rw [hg] at hk
                cases hk
              · rw [SMap.get_set_ne _ _ _ _ hkk]
                exact hk

theorem collectPairs_binds {pairs : List (String × String)}
    {m0 m : SMap String} (h : collectPairs m0 pairs = .ok m) :
    ∀ kv ∈ pairs, SMap.get? m kv.1 = some kv.2 := by
  induction pairs generalizing m0 with
  | nil => simp
  | cons kv rest ih =>
      intro y hy
      simp only [collectPairs, List.foldlM_cons] at h
      cases hs : importStep m0 kv with
      | error e => rw [hs] at h; simp [Bind.bind, Except.bind] at h
      | ok m1 =>
          rw [hs] at h
          simp only [Bind.bind, Except.bind] at h
          rcases List.mem_cons.mp hy with rfl | hy2
          · refine collectPairs_preserves h y.1 y.2 ?_
            simp only [importStep] at hs
            cases hg : SMap.get? m0 y.1 with
            | some id =>
                simp only [hg] at hs
                by_cases hne : id ≠ y.2
                · rw [if_pos hne] at hs; cases hs
                · rw [if_neg hne] at hs
                  injection hs with hs
                  subst hs
                  exact SMap.get_set m0 y.1 y.2
            | none =>
                simp only [hg] at hs
                injection hs with hs
                subst hs
                exact SMap.get_set m0 y.1 y.2
          · exact ih h y hy2

theorem collect_binds {cfgs : List (List (String × String))}
    {m : SMap String} (h : collectImportedResources cfgs = .ok m) :
    ∀ c ∈ cfgs, ∀ kv ∈ c, SMap.get? m kv.1 = some kv.2 := by
  have aux : ∀ (cfgs : List (List (String × String))) (m0 m : SMap String),
      cfgs.foldlM collectPairs m0 = .ok m →
      ∀ c ∈ cfgs, ∀ kv ∈ c, SMap.get? m kv.1 = some kv.2 := by
    intro cfgs
    induction cfgs with
    | nil => simp
    | cons c rest ih =>
        intro m0 m h c2 hc2 kv hkv
        simp only [List.foldlM_cons] at h
        cases hs : collectPairs m0 c with
        | error e => rw [hs] at h; simp [Bind.bind, Except.bind] at h
        | ok m1 =>
            rw [hs] at h
            simp only [Bind.bind, Except.bind] at h
            rcases List.mem_cons.mp hc2 with rfl | hc3
            · have h1 := collectPairs_binds hs kv hkv
              -- the later folds only preserve established bindings
              have aux2 : ∀ (l : List (List (String × String)))
                  (ma mb : SMap String), l.foldlM collectPairs ma = .ok mb →
                  ∀ k v, SMap.get? ma k = some v → SMap.get? mb k = some v := by
                intro l
                induction l with
                | nil =>
                    intro ma mb hh k v hk
                    simp only [List.foldlM_nil] at hh
                    injection hh with hh
                    rw [← hh]
                    exact hk
                | cons c0 rest0 ih0 =>
                    intro ma mb hh k v hk
                    simp only [List.foldlM_cons] at hh
                    cases hs0 : collectPairs ma c0 with
                    | error e =>
                        rw [hs0] at hh
                        simp [Bind.bind, Except.bind] at hh
                    | ok mc =>
                        rw [hs0] at hh
                        simp only [Bind.bind, Except.bind] at hh
                        exact ih0 mc mb hh k v
                          (collectPairs_preserves hs0 k v hk)
              exact aux2 rest m1 m h kv.1 kv.2 h1
            · exact ih m1 m h c2 hc3 kv hkv
  exact aux cfgs [] m h

/-- C10: declaring the same kusion resource ID with two different imported
IDs (in any two module configs) makes `Generate` fail with the duplicate-ID
error before any built-in generator runs or any plugin is invoked — the
failure is one fixed error value independent of the generator, module and
post-processing oracles; declaring the same kusion ID with the same
imported ID in several modules is accepted. -/
theorem generate_duplicate_import_ids
    (cfgs : List (List (String × String)))
    (k v1 v2 : String) (c1 c2 : List (String × String))
    (hc1 : c1 ∈ cfgs) (hc2 : c2 ∈ cfgs)
    (h1 : (k, v1) ∈ c1) (h2 : (k, v2) ∈ c2) (hne : v1 ≠ v2) :
    (∃ e, ∀ gens modules post,
      GenerateModel cfgs gens modules post = .error e) ∧
    (∀ cfgs2 : List (List (String × String)),
      (∀ x y : String × String, x ∈ cfgs2.flatten → y ∈ cfgs2.flatten →
        x.1 = y.1 → x.2 = y.2) →
      ∃ m, collectImportedResources cfgs2 = .ok m) := by
  constructor
  · cases hc : collectImportedResources cfgs with
    | ok m =>
        exfalso
        have hv1 := collect_binds hc c1 hc1 (k, v1) h1
        have hv2 := collect_binds hc c2 hc2 (k, v2) h2
        rw [hv1] at hv2
        injection hv2 with hv2
        exact hne hv2
    | error e =>
        refine ⟨e, fun gens modules post => ?_⟩
        simp [GenerateModel, hc, Bind.bind, Except.bind]
  · intro cfgs2 hfun
    have aux : ∀ (l : List (List (String × String))) (P : List (String × String))
        (hsub : ∀ c ∈ l, ∀ kv ∈ c, kv ∈ P)
        (hfn : ∀ x y : String × String, x ∈ P → y ∈ P → x.1 = y.1 → x.2 = y.2)
        (m0 : SMap String) (hm0 : ∀ k0 v0, SMap.get? m0 k0 = some v0 → (k0, v0) ∈ P),
        ∃ m, l.foldlM collectPairs m0 = .ok m := by
      intro l P hsub hfn
      induction l with
      | nil => exact fun m0 _ => ⟨m0, rfl⟩
      | cons c rest ih =>
          intro m0 hm0
          have auxp : ∀ (pairs : List (String × String)) (m1 : SMap String),
              (∀ kv ∈ pairs, kv ∈ P) →
              (∀ k0 v0, SMap.get? m1 k0 = some v0 → (k0, v0) ∈ P) →
              ∃ m2, collectPairs m1 pairs = .ok m2 ∧
                (∀ k0 v0, SMap.get? m2 k0 = some v0 → (k0, v0) ∈ P) := by
            intro pairs
            induction pairs with
            | nil => exact fun m1 _ hm1 => ⟨m1, rfl, hm1⟩
            | cons kv rest2 ih2 =>
                intro m1 hp hm1
                have hkvP : kv ∈ P := hp kv (by simp)
                have hstep : importStep m1 kv = .ok (SMap.set m1 kv.1 kv.2) := by
                  simp only [importStep]
                  cases hg : SMap.get? m1 kv.1 with
                  | some id =>
                      have hidP : (kv.1, id) ∈ P := hm1 kv.1 id hg
                      have : id = kv.2 := hfn (kv.1, id) kv hidP hkvP rfl
                      simp [this]
                  | none => rfl
                have hm2 : ∀ k0 v0,
                    SMap.get? (SMap.set m1 kv.1 kv.2) k0 = some v0 →
                    (k0, v0) ∈ P := by
                  intro k0 v0 hk0
                  by_cases hkk : kv.1 = k0
                  · subst hkk
                    rw [SMap.get_set] at hk0
                    injection hk0 with hk0
                    rw [← hk0]
                    exact hkvP
                  · rw [SMap.get_set_ne _ _ _ _ hkk] at hk0
                    exact hm1 k0 v0 hk0
                obtain ⟨m2, hm2ok, hm2P⟩ := ih2 (SMap.set m1 kv.1 kv.2)
                  (fun y hy => hp y (by simp [hy])) hm2
                refine ⟨m2, ?_, hm2P⟩
                simp only [collectPairs, List.foldlM_cons, hstep, Bind.bind,
                  Except.bind]
                exact hm2ok
          obtain ⟨m1, hm1ok, hm1P⟩ := auxp c m0 (hsub c (by simp)) hm0
          obtain ⟨m2, hm2ok⟩ := ih (fun c0 hc0 => hsub c0 (by simp [hc0])) m1 hm1P
          refine ⟨m2, ?_⟩
          simp only [List.foldlM_cons, hm1ok, Bind.bind, Except.bind]
          exact hm2ok
    exact aux cfgs2 cfgs2.flatten
      (fun c hc kv hkv => List.mem_flatten.mpr ⟨c, hc, hkv⟩) hfun [] (by simp [SMap.get?])

/-- Closed witness for C10: two modules importing different resources under
the kusion ID `db` make the pipeline fail whatever the oracles do. -/
theorem generate_duplicate_import_ids_witness :
    (∃ e, ∀ gens modules post,
      GenerateModel [[("db", "id-1")], [("db", "id-2")]] gens modules post =
        .error e) ∧
    (∀ cfgs2 : List (List (String × String)),
      (∀ x y : String × String, x ∈ cfgs2.flatten → y ∈ cfgs2.flatten →
        x.1 = y.1 → x.2 = y.2) →
      ∃ m, collectImportedResources cfgs2 = .ok m) :=
  generate_duplicate_import_ids [[("db", "id-1")], [("db", "id-2")]]
    "db" "id-1" "id-2" [("db", "id-1")] [("db", "id-2")]
    (by simp) (by simp) (by simp) (by simp) (by decide)

end Kusion
